import Mathlib

/-!
Verification development for a small MIPS-like assembler (`Assembler.py`) and a
dual-issue packet scheduler (`scheduler.py`).

The scheduler side (`scheduler.py`) works on 32-bit machine words, given in the
Python source as 8-hex-digit strings.  We embed such a word as a `Nat` (the
integer value of the hex string; the all-zero NOP word "00000000" is the value
0).  Packet slots in the Python code hold either an input instruction line or a
synthesized NOP line; we embed a slot as `Option Nat`, with `none` standing for
the synthesized NOP filler.
-/

namespace Asm

/-- Decoded instruction record, mirroring the dictionary returned by
`decode_mips` in `scheduler.py` (`funct` is present only for R-type). -/
structure Decoded where
  type : String
  opcode : Nat
  funct : Option Nat
  reads : Finset Nat
  writes : Finset Nat

/-- `decode_mips` from `scheduler.py`: decode a 32-bit word into its
read and write register sets.  Bit fiddling `(x >> k) & 0x3F` / `& 0x1F`
is rendered as `(x >>> k) % 64` / `% 32`. -/
def decode_mips (hex_instr : Nat) : Decoded :=
  if hex_instr = 0 then ⟨"nop", 0, none, ∅, ∅⟩
  else
    let instr := hex_instr
    let opcode := (instr >>> 26) % 64
    if opcode = 0 then
      let funct := instr % 64
      let rs := (instr >>> 21) % 32
      let rt := (instr >>> 16) % 32
      let rd := (instr >>> 11) % 32
      if funct = 0 ∨ funct = 2 ∨ funct = 3 then ⟨"R", opcode, some funct, {rt}, {rd}⟩
      else if funct = 8 then ⟨"R", opcode, some funct, {rs}, ∅⟩
      else ⟨"R", opcode, some funct, {rs, rt}, {rd}⟩
    else if opcode = 2 ∨ opcode = 3 then
      if opcode = 3 then ⟨"J", opcode, none, ∅, {31}⟩
      else ⟨"J", opcode, none, ∅, ∅⟩
    else
      let rs := (instr >>> 21) % 32
      let rt := (instr >>> 16) % 32
      if opcode = 4 ∨ opcode = 5 then ⟨"I", opcode, none, {rs, rt}, ∅⟩
      else if opcode = 35 then ⟨"I", opcode, none, {rs}, {rt}⟩
      else if opcode = 43 then ⟨"I", opcode, none, {rs, rt}, ∅⟩
      else ⟨"I", opcode, none, {rs}, {rt}⟩

/-- `is_special` from `scheduler.py`: special (must-be-slot2) opcodes are
j, jal, beq, bne, lw, sw; the NOP word is not special. -/
def is_special (hex_instr : Nat) : Bool :=
  if hex_instr = 0 then false
  else
    let opcode := (hex_instr >>> 26) % 64
    if opcode ∈ ({2, 3, 4, 5, 35, 43} : Finset Nat) then true else false

/-- `can_schedule_in_slot1` from `scheduler.py`: a candidate may sit in slot1
next to a special instruction in slot2 iff neither writes a register the
other reads (Python's truthiness test on a set is a nonemptiness test). -/
def can_schedule_in_slot1 (candidate_hex special_hex : Nat) : Bool :=
  let cand := decode_mips candidate_hex
  let spec := decode_mips special_hex
  if (cand.writes ∩ spec.reads).Nonempty then false
  else if (spec.writes ∩ cand.reads).Nonempty then false
  else true

/-- `safe_pair` from `scheduler.py`: two instructions may be issued in the
same packet iff neither writes a register the other reads. -/
def safe_pair (hex1 hex2 : Nat) : Bool :=
  let inst1 := decode_mips hex1
  let inst2 := decode_mips hex2
  if (inst1.writes ∩ inst2.reads).Nonempty then false
  else if (inst2.writes ∩ inst1.reads).Nonempty then false
  else true

/-- Forward scan of `schedule_instructions_enhanced` for a special anchor:
find the first unscheduled, non-special, hazard-safe candidate at index ≥ j.
The `fuel` argument makes the recursion structural; it is always called with
enough fuel to reach the end of the list, so behaviour matches the Python
`for j in range(i+1, n)` loop. -/
def scanSlot1 (instrs : List Nat) (used : List Bool) (curr : Nat) : Nat → Nat → Option Nat
  | 0, _ => none
  | fuel + 1, j =>
    if j < instrs.length then
      if used.getD j false then scanSlot1 instrs used curr fuel (j + 1)
      else
        let cand := instrs.getD j 0
        if is_special cand = false ∧ can_schedule_in_slot1 cand curr = true then some j
        else scanSlot1 instrs used curr fuel (j + 1)
    else none

/-- Forward scan of `schedule_instructions_enhanced` for a non-special anchor:
find the first unscheduled candidate at index ≥ j that is `safe_pair` with the
anchor. -/
def scanPair (instrs : List Nat) (used : List Bool) (curr : Nat) : Nat → Nat → Option Nat
  | 0, _ => none
  | fuel + 1, j =>
    if j < instrs.length then
      if used.getD j false then scanPair instrs used curr fuel (j + 1)
      else
        let cand := instrs.getD j 0
        if safe_pair curr cand = true then some j
        else scanPair instrs used curr fuel (j + 1)
    else none

/-- The main `while i < n` loop of `schedule_instructions_enhanced`.  Every
iteration increments `i`, so running it with fuel `n` from `i = 0` performs
exactly the Python loop.  A packet is a pair (slot1, slot2); `none` is the
synthesized NOP line. -/
def schedLoop (instrs : List Nat) : Nat → List Bool → Nat → List (Option Nat × Option Nat)
  | 0, _, _ => []
  | fuel + 1, used, i =>
    if i < instrs.length then
      if used.getD i false then schedLoop instrs fuel used (i + 1)
      else
        let curr := instrs.getD i 0
        if is_special curr then
          match scanSlot1 instrs used curr instrs.length (i + 1) with
          | some j =>
              (some (instrs.getD j 0), some curr) ::
                schedLoop instrs fuel ((used.set j true).set i true) (i + 1)
          | none =>
              (none, some curr) :: schedLoop instrs fuel (used.set i true) (i + 1)
        else
          match scanPair instrs used curr instrs.length (i + 1) with
          | some j =>
              (some curr, some (instrs.getD j 0)) ::
                schedLoop instrs fuel ((used.set i true).set j true) (i + 1)
          | none =>
              (some curr, none) :: schedLoop instrs fuel (used.set i true) (i + 1)
    else []

/-- `schedule_instructions_enhanced` from `scheduler.py`, on the hex words of
the input instructions. -/
def schedule_instructions_enhanced (instrs : List Nat) : List (Option Nat × Option Nat) :=
  schedLoop instrs instrs.length (List.replicate instrs.length false) 0

example :
    schedule_instructions_enhanced [0x8C410000, 0x00851820] =
      [(some 0x00851820, some 0x8C410000)] := by decide

example :
    schedule_instructions_enhanced [0xAC410000, 0x8C620000] =
      [(none, some 0xAC410000), (none, some 0x8C620000)] := by decide

/-- The two hazard predicates of `scheduler.py` are literally the same check. -/
theorem can_schedule_eq_safe_pair (c s : Nat) :
    can_schedule_in_slot1 c s = safe_pair c s := rfl

/-- `safe_pair` returns `true` exactly when both write/read intersections are
empty. -/
theorem safe_pair_iff (a b : Nat) :
    safe_pair a b = true ↔
      (decode_mips a).writes ∩ (decode_mips b).reads = ∅ ∧
      (decode_mips b).writes ∩ (decode_mips a).reads = ∅ := by
  unfold safe_pair
  rcases eq_or_ne ((decode_mips a).writes ∩ (decode_mips b).reads) ∅ with h1 | h1 <;>
    rcases eq_or_ne ((decode_mips b).writes ∩ (decode_mips a).reads) ∅ with h2 | h2 <;>
      simp [h1, h2, Finset.nonempty_iff_ne_empty]

/-- `safe_pair` is symmetric. -/
theorem safe_pair_comm (a b : Nat) : safe_pair a b = safe_pair b a := by
  unfold safe_pair
  rcases eq_or_ne ((decode_mips a).writes ∩ (decode_mips b).reads) ∅ with h1 | h1 <;>
    rcases eq_or_ne ((decode_mips b).writes ∩ (decode_mips a).reads) ∅ with h2 | h2 <;>
      simp [h1, h2, Finset.nonempty_iff_ne_empty]

/-- A successful `scanSlot1` scan returns an in-range, unused, non-special,
hazard-safe candidate index at or after the start position. -/
theorem scanSlot1_some (instrs : List Nat) (used : List Bool) (curr : Nat) :
    ∀ fuel j k, scanSlot1 instrs used curr fuel j = some k →
      j ≤ k ∧ k < instrs.length ∧ used.getD k false = false ∧
        is_special (instrs.getD k 0) = false ∧
        can_schedule_in_slot1 (instrs.getD k 0) curr = true := by
  intro fuel
  induction fuel with
  | zero => intro j k h; simp [scanSlot1] at h
  | succ fuel ih =>
    intro j k h
    simp only [scanSlot1] at h
    split at h
    · split at h
      · obtain ⟨h1, h2, h3, h4, h5⟩ := ih (j + 1) k h
        exact ⟨Nat.le_of_succ_le h1, h2, h3, h4, h5⟩
      · split at h
        · rename_i hj hu hc
          cases h
          exact ⟨Nat.le_refl _, hj, by simpa using hu, hc.1, hc.2⟩
        · obtain ⟨h1, h2, h3, h4, h5⟩ := ih (j + 1) k h
          exact ⟨Nat.le_of_succ_le h1, h2, h3, h4, h5⟩
    · cases h

/-- A successful `scanPair` scan returns an in-range, unused, `safe_pair`
candidate index at or after the start position. -/
theorem scanPair_some (instrs : List Nat) (used : List Bool) (curr : Nat) :
    ∀ fuel j k, scanPair instrs used curr fuel j = some k →
      j ≤ k ∧ k < instrs.length ∧ used.getD k false = false ∧
        safe_pair curr (instrs.getD k 0) = true := by
  intro fuel
  induction fuel with
  | zero => intro j k h; simp [scanPair] at h
  | succ fuel ih =>
    intro j k h
    simp only [scanPair] at h
    split at h
    · split at h
      · obtain ⟨h1, h2, h3, h4⟩ := ih (j + 1) k h
        exact ⟨Nat.le_of_succ_le h1, h2, h3, h4⟩
      · split at h
        · rename_i hj hu hc
          cases h
          exact ⟨Nat.le_refl _, hj, by simpa using hu, hc⟩
        · obtain ⟨h1, h2, h3, h4⟩ := ih (j + 1) k h
          exact ⟨Nat.le_of_succ_le h1, h2, h3, h4⟩
    · cases h

/-- Loop invariant: every packet emitted by `schedLoop` whose two slots both
hold instructions is a `safe_pair`. -/
theorem schedLoop_hazard_free (instrs : List Nat) :
    ∀ fuel used i p, p ∈ schedLoop instrs fuel used i →
      ∀ a b, p = (some a, some b) → safe_pair a b = true := by
  intro fuel
  induction fuel with
  | zero => intro used i p hp; simp [schedLoop] at hp
  | succ fuel ih =>
    intro used i p hp a b hab
    simp only [schedLoop] at hp
    split at hp
    · split at hp
      · exact ih _ _ _ hp a b hab
      · split at hp
        · split at hp
          · rename_i heq
            rcases List.mem_cons.mp hp with rfl | hmem
            · obtain ⟨-, -, -, -, h5⟩ := scanSlot1_some instrs used _ _ _ _ heq
              cases hab
              rw [can_schedule_eq_safe_pair] at h5
              exact h5
            · exact ih _ _ _ hmem a b hab
          · rcases List.mem_cons.mp hp with rfl | hmem
            · cases hab
            · exact ih _ _ _ hmem a b hab
        · split at hp
          · rename_i heq
            rcases List.mem_cons.mp hp with rfl | hmem
            · obtain ⟨-, -, -, h4⟩ := scanPair_some instrs used _ _ _ _ heq
              cases hab
              exact h4
            · exact ih _ _ _ hmem a b hab
          · rcases List.mem_cons.mp hp with rfl | hmem
            · cases hab
            · exact ih _ _ _ hmem a b hab
    · cases hp

/-- Loop invariant: slot1 of an emitted packet never holds a special
instruction (it holds the anchor when the anchor is non-special, a scanned
non-special candidate, or the NOP filler). -/
theorem schedLoop_slot1_not_special (instrs : List Nat) :
    ∀ fuel used i p, p ∈ schedLoop instrs fuel used i →
      ∀ a, p.1 = some a → is_special a = false := by
  intro fuel
  induction fuel with
  | zero => intro used i p hp; simp [schedLoop] at hp
  | succ fuel ih =>
    intro used i p hp a ha
    simp only [schedLoop] at hp
    split at hp
    · split at hp
      · exact ih _ _ _ hp a ha
      · split at hp
        · split at hp
          · rename_i heq
            rcases List.mem_cons.mp hp with rfl | hmem
            · obtain ⟨-, -, -, h4, -⟩ := scanSlot1_some instrs used _ _ _ _ heq
              cases ha
              exact h4
            · exact ih _ _ _ hmem a ha
          · rcases List.mem_cons.mp hp with rfl | hmem
            · cases ha
            · exact ih _ _ _ hmem a ha
        · rename_i hspec
          split at hp
          · rcases List.mem_cons.mp hp with rfl | hmem
            · cases ha
              simpa using hspec
            · exact ih _ _ _ hmem a ha
          · rcases List.mem_cons.mp hp with rfl | hmem
            · cases ha
              simpa using hspec
            · exact ih _ _ _ hmem a ha
    · cases hp

/-- C1: for every input instruction list, every packet produced by the
scheduler whose two slots both hold (non-NOP-filler) instructions A and B is
hazard-free under the decoder: the write set of A does not meet the read set
of B and the write set of B does not meet the read set of A. -/
theorem c1_packets_hazard_free
    (instrs : List Nat) (p : Option Nat × Option Nat) (a b : Nat)
    (hp : p ∈ schedule_instructions_enhanced instrs) (hab : p = (some a, some b)) :
    (decode_mips a).writes ∩ (decode_mips b).reads = ∅ ∧
      (decode_mips b).writes ∩ (decode_mips a).reads = ∅ :=
  (safe_pair_iff a b).mp (schedLoop_hazard_free instrs _ _ _ _ hp a b hab)

/-- Witness for C1 on a concrete program: `lw $1,0($2)` (0x8C410000, special)
paired with the hazard-independent `add $3,$4,$5` (0x00851820) pulled into
slot1. -/
theorem c1_witness :
    ((some 0x00851820, some 0x8C410000) ∈
        schedule_instructions_enhanced [0x8C410000, 0x00851820]) ∧
      ((decode_mips 0x00851820).writes ∩ (decode_mips 0x8C410000).reads = ∅ ∧
        (decode_mips 0x8C410000).writes ∩ (decode_mips 0x00851820).reads = ∅) :=
  ⟨by decide, c1_packets_hazard_free [0x8C410000, 0x00851820] _ 0x00851820 0x8C410000
    (by decide) rfl⟩

/-- C3: in every packet pairing a special instruction with a non-special
partner, the special one is in slot2 and the non-special one in slot1 (this
covers both the special-anchor and the pulled-forward-special cases, since
slot1 never holds a special instruction at all). -/
theorem c3_special_in_slot2
    (instrs : List Nat) (p : Option Nat × Option Nat) (a b : Nat)
    (hp : p ∈ schedule_instructions_enhanced instrs) (hab : p = (some a, some b))
    (hne : is_special a ≠ is_special b) :
    is_special b = true ∧ is_special a = false := by
  have h1 : is_special a = false := by
    apply schedLoop_slot1_not_special instrs _ _ _ _ hp a
    rw [hab]
  refine ⟨?_, h1⟩
  rw [h1] at hne
  exact (Bool.not_eq_false _).mp (Ne.symm hne)

/-- Witness for C3 on the same concrete program as C1: the special `lw` ends
in slot2, the non-special `add` in slot1. -/
theorem c3_witness :
    ((some 0x00851820, some 0x8C410000) ∈
        schedule_instructions_enhanced [0x8C410000, 0x00851820]) ∧
      is_special 0x00851820 ≠ is_special 0x8C410000 ∧
      (is_special 0x8C410000 = true ∧ is_special 0x00851820 = false) :=
  ⟨by decide, by decide,
    c3_special_in_slot2 [0x8C410000, 0x00851820] _ 0x00851820 0x8C410000
      (by decide) rfl (by decide)⟩

/-- The two instruction words held by a packet's slots (the NOP filler `none`
contributes nothing). -/
def packetWords (p : Option Nat × Option Nat) : List Nat := p.1.toList ++ p.2.toList

/-- All instruction words held in slots across a packet list, in order. -/
def scheduledWords (ps : List (Option Nat × Option Nat)) : List Nat :=
  (ps.map packetWords).flatten

/-- The multiset of still-unscheduled instructions at indices `≥ i`
(with enough fuel to reach the end of the list). -/
def remFrom (instrs : List Nat) (used : List Bool) : Nat → Nat → Multiset Nat
  | 0, _ => 0
  | fuel + 1, i =>
    if i < instrs.length then
      if used.getD i false then remFrom instrs used fuel (i + 1)
      else instrs.getD i 0 ::ₘ remFrom instrs used fuel (i + 1)
    else 0

theorem getD_set_ne {l : List Bool} {i j : Nat} (h : i ≠ j) (a d : Bool) :
    (l.set i a).getD j d = l.getD j d := by
  simp [List.getD_eq_getElem?_getD, List.getElem?_set_ne h]

theorem getD_set_self {l : List Bool} {j : Nat} (h : j < l.length) (a d : Bool) :
    (l.set j a).getD j d = a := by
  simp [List.getD_eq_getElem?_getD, List.getElem?_set_self', List.getElem?_eq_getElem h]

/-- Marking an index below the scan start does not change the remaining
multiset. -/
theorem remFrom_set_lt (instrs : List Nat) (used : List Bool) (j : Nat) (b : Bool) :
    ∀ fuel i, j < i →
      remFrom instrs (used.set j b) fuel i = remFrom instrs used fuel i := by
  intro fuel
  induction fuel with
  | zero => intro i _; rfl
  | succ fuel ih =>
    intro i hj
    simp only [remFrom]
    rw [getD_set_ne (Nat.ne_of_lt hj), ih (i + 1) (Nat.lt_succ_of_lt hj)]

/-- Extracting one unscheduled index `j ≥ i` from the remaining multiset. -/
theorem remFrom_extract (instrs : List Nat) (used : List Bool) (j : Nat)
    (hlen : used.length = instrs.length) (hj : j < instrs.length)
    (hu : used.getD j false = false) :
    ∀ fuel i, i ≤ j → j < i + fuel →
      remFrom instrs used fuel i =
        instrs.getD j 0 ::ₘ remFrom instrs (used.set j true) fuel i := by
  intro fuel
  induction fuel with
  | zero => intro i hij hlt; omega
  | succ fuel ih =>
    intro i hij hlt
    rcases eq_or_lt_of_le hij with rfl | hij'
    · simp only [remFrom]
      rw [if_pos hj, if_pos hj, hu, getD_set_self (show i < used.length by omega),
        if_neg (show ¬ (false = true) by simp), if_pos rfl,
        remFrom_set_lt instrs used i true fuel (i + 1) (Nat.lt_succ_self i)]
    · simp only [remFrom]
      have hi : i < instrs.length := by omega
      rw [if_pos hi, if_pos hi, getD_set_ne (Nat.ne_of_lt hij').symm,
        ih (i + 1) hij' (by omega)]
      by_cases hui : used.getD i false
      · rw [if_pos hui, if_pos hui]
      · rw [if_neg hui, if_neg hui]
        exact Multiset.cons_swap _ _ _

/-- With no index scheduled yet, the remaining multiset from `i` is the suffix
of the input list. -/
theorem remFrom_replicate (instrs : List Nat) :
    ∀ fuel i, instrs.length ≤ i + fuel →
      remFrom instrs (List.replicate instrs.length false) fuel i =
        (instrs.drop i : Multiset Nat) := by
  intro fuel
  induction fuel with
  | zero =>
    intro i h
    rw [List.drop_eq_nil_of_le (by omega)]
    rfl
  | succ fuel ih =>
    intro i h
    simp only [remFrom]
    by_cases hi : i < instrs.length
    · rw [if_pos hi]
      have hrep : (List.replicate instrs.length false).getD i false = false := by
        simp [List.getD_eq_getElem?_getD, List.getElem?_replicate, hi]
      rw [hrep, if_neg (show ¬ (false = true) by simp), ih (i + 1) (by omega),
        List.drop_eq_getElem_cons hi]
      have : instrs.getD i 0 = instrs[i] := by
        simp [List.getD_eq_getElem?_getD, List.getElem?_eq_getElem hi]
      rw [this, ← Multiset.cons_coe]
    · rw [if_neg hi, List.drop_eq_nil_of_le (by omega)]
      rfl

/-- Main counting invariant: the words placed into slots by the scheduling
loop are exactly the unscheduled instructions at indices `≥ i`, as a
multiset. -/
theorem schedLoop_words (instrs : List Nat) :
    ∀ fuel used i, used.length = instrs.length → instrs.length ≤ i + fuel →
      (scheduledWords (schedLoop instrs fuel used i) : Multiset Nat) =
        remFrom instrs used fuel i := by
  intro fuel
  induction fuel with
  | zero => intro used i _ _; rfl
  | succ fuel ih =>
    intro used i hlen hful
    simp only [schedLoop, remFrom]
    by_cases hi : i < instrs.length
    · rw [if_pos hi, if_pos hi]
      by_cases hu : used.getD i false
      · rw [if_pos hu, if_pos hu]
        exact ih used (i + 1) hlen (by omega)
      · rw [if_neg hu, if_neg hu]
        by_cases hs : is_special (instrs.getD i 0)
        · rw [if_pos hs]
          cases hscan : scanSlot1 instrs used (instrs.getD i 0) instrs.length (i + 1) with
          | some j =>
            obtain ⟨hj1, hj2, hj3, -, -⟩ := scanSlot1_some instrs used _ _ _ _ hscan
            have hIH := ih ((used.set j true).set i true) (i + 1)
              (by simp [hlen]) (by omega)
            have hset : remFrom instrs ((used.set j true).set i true) fuel (i + 1) =
                remFrom instrs (used.set j true) fuel (i + 1) :=
              remFrom_set_lt instrs (used.set j true) i true fuel (i + 1) (Nat.lt_succ_self i)
            have hext : remFrom instrs used fuel (i + 1) =
                instrs.getD j 0 ::ₘ remFrom instrs (used.set j true) fuel (i + 1) :=
              remFrom_extract instrs used j hlen hj2 hj3 fuel (i + 1) hj1 (by omega)
            rw [show scheduledWords ((some (instrs.getD j 0), some (instrs.getD i 0)) ::
                  schedLoop instrs fuel ((used.set j true).set i true) (i + 1)) =
                instrs.getD j 0 :: instrs.getD i 0 ::
                  scheduledWords (schedLoop instrs fuel ((used.set j true).set i true) (i + 1))
              from rfl]
            rw [← Multiset.cons_coe, ← Multiset.cons_coe, hIH, hset, hext,
              Multiset.cons_swap]
          | none =>
            have hIH := ih (used.set i true) (i + 1) (by simp [hlen]) (by omega)
            have hset : remFrom instrs (used.set i true) fuel (i + 1) =
                remFrom instrs used fuel (i + 1) :=
              remFrom_set_lt instrs used i true fuel (i + 1) (Nat.lt_succ_self i)
            rw [show scheduledWords ((none, some (instrs.getD i 0)) ::
                  schedLoop instrs fuel (used.set i true) (i + 1)) =
                instrs.getD i 0 ::
                  scheduledWords (schedLoop instrs fuel (used.set i true) (i + 1)) from rfl]
            rw [← Multiset.cons_coe, hIH, hset]
        · rw [if_neg hs]
          cases hscan : scanPair instrs used (instrs.getD i 0) instrs.length (i + 1) with
          | some j =>
            obtain ⟨hj1, hj2, hj3, -⟩ := scanPair_some instrs used _ _ _ _ hscan
            have hIH := ih ((used.set i true).set j true) (i + 1)
              (by simp [hlen]) (by omega)
            have hcomm : (used.set i true).set j true = (used.set j true).set i true :=
              List.set_comm true true used (by omega)
            have hset : remFrom instrs ((used.set j true).set i true) fuel (i + 1) =
                remFrom instrs (used.set j true) fuel (i + 1) :=
              remFrom_set_lt instrs (used.set j true) i true fuel (i + 1) (Nat.lt_succ_self i)
            have hext : remFrom instrs used fuel (i + 1) =
                instrs.getD j 0 ::ₘ remFrom instrs (used.set j true) fuel (i + 1) :=
              remFrom_extract instrs used j hlen hj2 hj3 fuel (i + 1) hj1 (by omega)
            rw [show scheduledWords ((some (instrs.getD i 0), some (instrs.getD j 0)) ::
                  schedLoop instrs fuel ((used.set i true).set j true) (i + 1)) =
                instrs.getD i 0 :: instrs.getD j 0 ::
                  scheduledWords (schedLoop instrs fuel ((used.set i true).set j true) (i + 1))
              from rfl]
            rw [← Multiset.cons_coe, ← Multiset.cons_coe, hIH, hcomm, hset, hext]
          | none =>
            have hIH := ih (used.set i true) (i + 1) (by simp [hlen]) (by omega)
            have hset : remFrom instrs (used.set i true) fuel (i + 1) =
                remFrom instrs used fuel (i + 1) :=
              remFrom_set_lt instrs used i true fuel (i + 1) (Nat.lt_succ_self i)
            rw [show scheduledWords ((some (instrs.getD i 0), none) ::
                  schedLoop instrs fuel (used.set i true) (i + 1)) =
                instrs.getD i 0 ::
                  scheduledWords (schedLoop instrs fuel (used.set i true) (i + 1)) from rfl]
            rw [← Multiset.cons_coe, hIH, hset]
    · rw [if_neg hi, if_neg hi]
      rfl

/-- The scheduling loop instrumented with the anchor (slot-owning) index `i`
of each emitted packet; identical branch structure to `schedLoop`. -/
def schedLoopA (instrs : List Nat) :
    Nat → List Bool → Nat → List ((Option Nat × Option Nat) × Nat)
  | 0, _, _ => []
  | fuel + 1, used, i =>
    if i < instrs.length then
      if used.getD i false then schedLoopA instrs fuel used (i + 1)
      else
        if is_special (instrs.getD i 0) then
          match scanSlot1 instrs used (instrs.getD i 0) instrs.length (i + 1) with
          | some j =>
              ((some (instrs.getD j 0), some (instrs.getD i 0)), i) ::
                schedLoopA instrs fuel ((used.set j true).set i true) (i + 1)
          | none =>
              ((none, some (instrs.getD i 0)), i) ::
                schedLoopA instrs fuel (used.set i true) (i + 1)
        else
          match scanPair instrs used (instrs.getD i 0) instrs.length (i + 1) with
          | some j =>
              ((some (instrs.getD i 0), some (instrs.getD j 0)), i) ::
                schedLoopA instrs fuel ((used.set i true).set j true) (i + 1)
          | none =>
              ((some (instrs.getD i 0), none), i) ::
                schedLoopA instrs fuel (used.set i true) (i + 1)
    else []

/-- Projecting away the anchor index recovers the scheduling loop. -/
theorem schedLoopA_fst (instrs : List Nat) :
    ∀ fuel used i,
      (schedLoopA instrs fuel used i).map Prod.fst = schedLoop instrs fuel used i := by
  intro fuel
  induction fuel with
  | zero => intro used i; rfl
  | succ fuel ih =>
    intro used i
    simp only [schedLoopA, schedLoop]
    by_cases hi : i < instrs.length
    · rw [if_pos hi, if_pos hi]
      by_cases hu : used.getD i false
      · rw [if_pos hu, if_pos hu]
        exact ih used (i + 1)
      · rw [if_neg hu, if_neg hu]
        by_cases hs : is_special (instrs.getD i 0)
        · rw [if_pos hs, if_pos hs]
          cases scanSlot1 instrs used (instrs.getD i 0) instrs.length (i + 1) with
          | some j => simp only [List.map_cons, ih]
          | none => simp only [List.map_cons, ih]
        · rw [if_neg hs, if_neg hs]
          cases scanPair instrs used (instrs.getD i 0) instrs.length (i + 1) with
          | some j => simp only [List.map_cons, ih]
          | none => simp only [List.map_cons, ih]
    · rw [if_neg hi, if_neg hi]
      rfl

/-- Every anchor recorded by the instrumented loop lies between the loop
counter and the end of the instruction list. -/
theorem schedLoopA_anchor_range (instrs : List Nat) :
    ∀ fuel used i x, x ∈ schedLoopA instrs fuel used i →
      i ≤ x.2 ∧ x.2 < instrs.length := by
  intro fuel
  induction fuel with
  | zero => intro used i x hx; simp [schedLoopA] at hx
  | succ fuel ih =>
    intro used i x hx
    simp only [schedLoopA] at hx
    by_cases hi : i < instrs.length
    · rw [if_pos hi] at hx
      by_cases hu : used.getD i false
      · rw [if_pos hu] at hx
        obtain ⟨h1, h2⟩ := ih _ _ _ hx
        exact ⟨by omega, h2⟩
      · rw [if_neg hu] at hx
        by_cases hs : is_special (instrs.getD i 0)
        · rw [if_pos hs] at hx
          cases hscan : scanSlot1 instrs used (instrs.getD i 0) instrs.length (i + 1) with
          | some j =>
            rw [hscan] at hx
            rcases List.mem_cons.mp hx with rfl | hmem
            · exact ⟨Nat.le_refl _, hi⟩
            · obtain ⟨h1, h2⟩ := ih _ _ _ hmem
              exact ⟨by omega, h2⟩
          | none =>
            rw [hscan] at hx
            rcases List.mem_cons.mp hx with rfl | hmem
            · exact ⟨Nat.le_refl _, hi⟩
            · obtain ⟨h1, h2⟩ := ih _ _ _ hmem
              exact ⟨by omega, h2⟩
        · rw [if_neg hs] at hx
          cases hscan : scanPair instrs used (instrs.getD i 0) instrs.length (i + 1) with
          | some j =>
            rw [hscan] at hx
            rcases List.mem_cons.mp hx with rfl | hmem
            · exact ⟨Nat.le_refl _, hi⟩
            · obtain ⟨h1, h2⟩ := ih _ _ _ hmem
              exact ⟨by omega, h2⟩
          | none =>
            rw [hscan] at hx
            rcases List.mem_cons.mp hx with rfl | hmem
            · exact ⟨Nat.le_refl _, hi⟩
            · obtain ⟨h1, h2⟩ := ih _ _ _ hmem
              exact ⟨by omega, h2⟩
    · rw [if_neg hi] at hx
      cases hx

/-- The anchor indices recorded by the instrumented loop are strictly
increasing. -/
theorem schedLoopA_anchor_sorted (instrs : List Nat) :
    ∀ fuel used i,
      List.Pairwise (· < ·) ((schedLoopA instrs fuel used i).map Prod.snd) := by
  intro fuel
  induction fuel with
  | zero => intro used i; simp [schedLoopA]
  | succ fuel ih =>
    intro used i
    have hcons : ∀ (used' : List Bool) (p : Option Nat × Option Nat),
        List.Pairwise (· < ·)
          (((p, i) :: schedLoopA instrs fuel used' (i + 1)).map Prod.snd) := by
      intro used' p
      simp only [List.map_cons, List.pairwise_cons]
      refine ⟨?_, ih used' (i + 1)⟩
      intro y hy
      obtain ⟨x, hx, rfl⟩ := List.mem_map.mp hy
      have := (schedLoopA_anchor_range instrs fuel used' (i + 1) x hx).1
      omega
    simp only [schedLoopA]
    split
    · split
      · exact ih _ _
      · split
        · split
          · exact hcons _ _
          · exact hcons _ _
        · split
          · exact hcons _ _
          · exact hcons _ _
    · simp

/-- Each packet of the instrumented loop holds its anchor instruction in
slot2 when that instruction is special, and in slot1 otherwise. -/
theorem schedLoopA_anchor_slot (instrs : List Nat) :
    ∀ fuel used i x, x ∈ schedLoopA instrs fuel used i →
      (if is_special (instrs.getD x.2 0) = true
       then x.1.2 = some (instrs.getD x.2 0)
       else x.1.1 = some (instrs.getD x.2 0)) := by
  intro fuel
  induction fuel with
  | zero => intro used i x hx; simp [schedLoopA] at hx
  | succ fuel ih =>
    intro used i x hx
    simp only [schedLoopA] at hx
    by_cases hi : i < instrs.length
    · rw [if_pos hi] at hx
      by_cases hu : used.getD i false
      · rw [if_pos hu] at hx
        exact ih _ _ _ hx
      · rw [if_neg hu] at hx
        by_cases hs : is_special (instrs.getD i 0)
        · rw [if_pos hs] at hx
          cases hscan : scanSlot1 instrs used (instrs.getD i 0) instrs.length (i + 1) with
          | some j =>
            rw [hscan] at hx
            rcases List.mem_cons.mp hx with rfl | hmem
            · rw [if_pos hs]
            · exact ih _ _ _ hmem
          | none =>
            rw [hscan] at hx
            rcases List.mem_cons.mp hx with rfl | hmem
            · rw [if_pos hs]
            · exact ih _ _ _ hmem
        · rw [if_neg hs] at hx
          cases hscan : scanPair instrs used (instrs.getD i 0) instrs.length (i + 1) with
          | some j =>
            rw [hscan] at hx
            rcases List.mem_cons.mp hx with rfl | hmem
            · rw [if_neg hs]
            · exact ih _ _ _ hmem
          | none =>
            rw [hscan] at hx
            rcases List.mem_cons.mp hx with rfl | hmem
            · rw [if_neg hs]
            · exact ih _ _ _ hmem
    · rw [if_neg hi] at hx
      cases hx

/-- C2: the scheduler places each input instruction in exactly one packet
slot — the multiset of non-NOP slot entries equals the input list — and the
anchor (slot-owning) instructions appear across the packet sequence at
strictly increasing input positions, the anchor sitting in slot2 when it is
special and in slot1 otherwise. -/
theorem c2_exactly_once_and_anchor_order (instrs : List Nat) :
    (scheduledWords (schedule_instructions_enhanced instrs) : Multiset Nat) =
      (instrs : Multiset Nat) ∧
    ∃ anchors : List Nat,
      List.Pairwise (· < ·) anchors ∧
      anchors.length = (schedule_instructions_enhanced instrs).length ∧
      ∀ k, k < anchors.length →
        anchors.getD k 0 < instrs.length ∧
        (if is_special (instrs.getD (anchors.getD k 0) 0) = true
         then ((schedule_instructions_enhanced instrs).getD k (none, none)).2 =
                some (instrs.getD (anchors.getD k 0) 0)
         else ((schedule_instructions_enhanced instrs).getD k (none, none)).1 =
                some (instrs.getD (anchors.getD k 0) 0)) := by
  constructor
  · rw [schedule_instructions_enhanced,
      schedLoop_words instrs instrs.length (List.replicate instrs.length false) 0
        (by simp) (by omega),
      remFrom_replicate instrs instrs.length 0 (by omega), List.drop_zero]
  · refine ⟨(schedLoopA instrs instrs.length (List.replicate instrs.length false) 0).map
      Prod.snd, schedLoopA_anchor_sorted instrs _ _ _, ?_, ?_⟩
    · rw [List.length_map, schedule_instructions_enhanced,
        ← schedLoopA_fst instrs instrs.length (List.replicate instrs.length false) 0,
        List.length_map]
    · intro k hk
      rw [List.length_map] at hk
      set L := schedLoopA instrs instrs.length (List.replicate instrs.length false) 0 with hL
      have hmem : L[k] ∈ L := List.getElem_mem hk
      have hrange := schedLoopA_anchor_range instrs _ _ _ L[k] hmem
      have hslot := schedLoopA_anchor_slot instrs _ _ _ L[k] hmem
      have hA : (L.map Prod.snd).getD k 0 = L[k].2 := by
        rw [List.getD_eq_getElem?_getD, List.getElem?_eq_getElem (by simpa using hk)]
        simp
      have hP : (schedule_instructions_enhanced instrs).getD k (none, none) = L[k].1 := by
        rw [schedule_instructions_enhanced, ← schedLoopA_fst instrs instrs.length
          (List.replicate instrs.length false) 0, ← hL,
          List.getD_eq_getElem?_getD, List.getElem?_eq_getElem (by simpa using hk)]
        simp
      rw [hA, hP]
      exact ⟨hrange.2, hslot⟩

/-- Witness for C2 at the concrete two-instruction program used for C1. -/
theorem c2_witness :
    (scheduledWords (schedule_instructions_enhanced [0x8C410000, 0x00851820]) :
        Multiset Nat) = ([0x8C410000, 0x00851820] : List Nat) ∧
    ∃ anchors : List Nat,
      List.Pairwise (· < ·) anchors ∧
      anchors.length =
        (schedule_instructions_enhanced [0x8C410000, 0x00851820]).length ∧
      ∀ k, k < anchors.length →
        anchors.getD k 0 < ([0x8C410000, 0x00851820] : List Nat).length ∧
        (if is_special (([0x8C410000, 0x00851820] : List Nat).getD (anchors.getD k 0) 0) =
            true
         then ((schedule_instructions_enhanced [0x8C410000, 0x00851820]).getD k
                (none, none)).2 =
              some (([0x8C410000, 0x00851820] : List Nat).getD (anchors.getD k 0) 0)
         else ((schedule_instructions_enhanced [0x8C410000, 0x00851820]).getD k
                (none, none)).1 =
              some (([0x8C410000, 0x00851820] : List Nat).getD (anchors.getD k 0) 0)) :=
  c2_exactly_once_and_anchor_order [0x8C410000, 0x00851820]

/-- C10: the two independently implemented hazard predicates agree on every
pair of words, and both are symmetric. -/
theorem c10_hazard_predicates_agree (c s : Nat) :
    can_schedule_in_slot1 c s = safe_pair c s ∧
      safe_pair c s = safe_pair s c ∧
      can_schedule_in_slot1 c s = can_schedule_in_slot1 s c := by
  refine ⟨can_schedule_eq_safe_pair c s, safe_pair_comm c s, ?_⟩
  rw [can_schedule_eq_safe_pair, can_schedule_eq_safe_pair]
  exact safe_pair_comm c s

/-!
Assembler side (`Assembler.py`).  Python strings are embedded as Lean
`String`s; the string operations the code uses (strip, split, replace,
startswith/endswith, int parsing, `format(..., '0Nb')`, f-string rendering)
are modelled by structurally recursive functions on `List Char` below, so
that everything evaluates by `decide`/`rfl`.
-/

/-- Characters treated as whitespace by Python `strip`/`split`. -/
def wsChar (c : Char) : Bool := decide (c = ' ' ∨ c = '\t' ∨ c = '\n' ∨ c = '\r')

/-- ASCII lower-casing, as applied by Python `.lower()` to the inputs here. -/
def lowerChar (c : Char) : Char :=
  if 'A' ≤ c ∧ c ≤ 'Z' then Char.ofNat (c.toNat + 32) else c

/-- Python `str.strip()`. -/
def trimChars (l : List Char) : List Char :=
  ((l.dropWhile wsChar).reverse.dropWhile wsChar).reverse

/-- Split at every character satisfying `p`, keeping empty chunks
(Python `str.split(sep)` semantics for a one-character separator). -/
def chSplitP (p : Char → Bool) : List Char → List (List Char)
  | [] => [[]]
  | c :: cs =>
    if p c then [] :: chSplitP p cs
    else
      match chSplitP p cs with
      | [] => [[c]]
      | a :: as => (c :: a) :: as

/-- Python `str.split(sep)` for a single-character separator. -/
def chSplit (sep : Char) (l : List Char) : List (List Char) :=
  chSplitP (fun c => decide (c = sep)) l

/-- Python `str.split()` with no argument: split on whitespace runs,
dropping empty chunks. -/
def wordsOf (l : List Char) : List (List Char) :=
  (chSplitP wsChar l).filter (fun w => decide (w ≠ []))

/-- The `replace(',', ' ')` preprocessing of `parse_instruction`. -/
def commaToSpace (c : Char) : Char := if c = ',' then ' ' else c

/-- `parse_instruction` from `Assembler.py`: split on commas/whitespace,
lower-case the mnemonic.  `none` models the Python `IndexError` on a line
with no tokens. -/
def parse_instruction (line : String) : Option (String × List String) :=
  match wordsOf (line.data.map commaToSpace) with
  | [] => none
  | w :: ws => some (String.mk (w.map lowerChar), ws.map String.mk)

def isDigitChar (c : Char) : Bool := decide ('0' ≤ c ∧ c ≤ '9')

def decValAux : List Char → Nat → Option Nat
  | [], acc => some acc
  | c :: cs, acc =>
    if isDigitChar c then decValAux cs (10 * acc + (c.toNat - 48)) else none

/-- Value of a nonempty all-digit string. -/
def decVal : List Char → Option Nat
  | [] => none
  | l => decValAux l 0

/-- Python `int(s)` (decimal, optional sign); `none` models `ValueError`. -/
def parseDec (s : String) : Option Int :=
  match s.data with
  | '-' :: rest => (decVal rest).map (fun n => -(n : Int))
  | '+' :: rest => (decVal rest).map (fun n => (n : Int))
  | l => (decVal l).map (fun n => (n : Int))

def hexDigitVal (c : Char) : Option Nat :=
  if '0' ≤ c ∧ c ≤ '9' then some (c.toNat - 48)
  else if 'a' ≤ c ∧ c ≤ 'f' then some (c.toNat - 87)
  else if 'A' ≤ c ∧ c ≤ 'F' then some (c.toNat - 55)
  else none

def hexValAux : List Char → Nat → Option Nat
  | [], acc => some acc
  | c :: cs, acc =>
    match hexDigitVal c with
    | some d => hexValAux cs (16 * acc + d)
    | none => none

/-- Value of a nonempty hex-digit string. -/
def hexVal : List Char → Option Nat
  | [] => none
  | l => hexValAux l 0

/-- `parse_immediate` from `Assembler.py`: `0x`/`0X`-prefixed strings parse
as hex (Python `int(value, 16)` tolerates the prefix), everything else as
decimal. -/
def parse_immediate (s : String) : Option Int :=
  match s.data.map lowerChar with
  | '0' :: 'x' :: _ => (hexVal (s.data.drop 2)).map (fun n => (n : Int))
  | _ => parseDec s

def binDigitsAux : Nat → Nat → List Char
  | 0, _ => []
  | fuel + 1, n =>
    if n = 0 then [] else binDigitsAux fuel (n / 2) ++ [if n % 2 = 1 then '1' else '0']

/-- Binary digits of `n` (at least one digit). -/
def natBinDigits (n : Nat) : List Char := if n = 0 then ['0'] else binDigitsAux n n

/-- Left-pad with `'0'` to width `w` (no truncation). -/
def padZeros (w : Nat) (l : List Char) : List Char := List.replicate (w - l.length) '0' ++ l

/-- Python `format(n, '0{w}b')` for a nonnegative value: zero-padded binary,
wider than `w` when `n` needs more digits. -/
def fmtBin (w n : Nat) : String := String.mk (padZeros w (natBinDigits n))

/-- Python `format(z, '0{w}b')` for a possibly negative int: a sign followed
by zero-padding to total width `w`. -/
def fmtBinInt (w : Nat) (z : Int) : String :=
  if z < 0 then String.mk ('-' :: padZeros (w - 1) (natBinDigits z.natAbs))
  else fmtBin w z.toNat

def hexDigitChar (d : Nat) : Char :=
  if d < 10 then Char.ofNat (48 + d) else Char.ofNat (55 + d)

def hexDigitsAux : Nat → Nat → List Char
  | 0, _ => []
  | fuel + 1, n =>
    if n = 0 then [] else hexDigitsAux fuel (n / 16) ++ [hexDigitChar (n % 16)]

/-- Uppercase hex digits of `n` (at least one digit). -/
def natHexDigits (n : Nat) : List Char := if n = 0 then ['0'] else hexDigitsAux n n

/-- Python `f"{n:08X}"`. -/
def natToHex8 (n : Nat) : String := String.mk (padZeros 8 (natHexDigits n))

def bitChar (c : Char) : Bool := decide (c = '0' ∨ c = '1')

/-- Value of a binary digit string (non-bit characters count as 0; only ever
applied under `binValOpt`'s all-bits guard or to known bit strings). -/
def binValue (l : List Char) : Nat :=
  l.foldl (fun a c => 2 * a + (if c = '1' then 1 else 0)) 0

/-- Python `int(s, 2)`: requires a nonempty all-bits string. -/
def binValOpt (l : List Char) : Option Nat :=
  if l ≠ [] ∧ l.all bitChar then some (binValue l) else none

/-- Error kinds of the spec's §7; the Python code raises `KeyError`
(register/label lookup), `ValueError` (int parsing / unpacking) or
`IndexError` (missing tokens), which the spec maps to these kinds by cause:
unknown register or unparsable immediate or malformed memory operand →
`InvalidOperand`; unknown mnemonic → `UnknownMnemonic`; label-table miss →
`UndefinedLabel`; a line with no tokens → `MalformedLine`. -/
inductive AsmError where
  | UndefinedLabel
  | UnknownMnemonic
  | InvalidOperand
  | MalformedLine
deriving DecidableEq

instance exceptDecEq {ε α : Type} [DecidableEq ε] [DecidableEq α] :
    DecidableEq (Except ε α) := fun x y =>
  match x, y with
  | Except.ok a, Except.ok b =>
    if h : a = b then isTrue (by rw [h])
    else isFalse (by intro hc; cases hc; exact h rfl)
  | Except.ok _, Except.error _ => isFalse (by intro hc; cases hc)
  | Except.error _, Except.ok _ => isFalse (by intro hc; cases hc)
  | Except.error a, Except.error b =>
    if h : a = b then isTrue (by rw [h])
    else isFalse (by intro hc; cases hc; exact h rfl)

/-- The `opcodes` table of `Assembler.py`. -/
def opcodes : List (String × String) :=
  [("add", "000000"), ("sub", "000000"), ("and", "000000"), ("or", "000000"),
   ("xor", "000000"), ("nor", "000000"), ("slt", "000000"), ("sltu", "000000"),
   ("sll", "000000"), ("srl", "000000"), ("sra", "000000"), ("sllv", "000000"),
   ("srlv", "000000"), ("srav", "000000"), ("jr", "000000"), ("addu", "000000"),
   ("subu", "000000"), ("slti", "001010"), ("sltiu", "001011"), ("addi", "001000"),
   ("addiu", "001001"), ("andi", "001100"), ("ori", "001101"), ("xori", "001110"),
   ("lw", "100011"), ("sw", "101011"), ("beq", "000100"), ("bne", "000101"),
   ("j", "000010"), ("jal", "000011")]

/-- The `func_codes` table of `Assembler.py`. -/
def func_codes : List (String × String) :=
  [("add", "100000"), ("sub", "100010"), ("and", "100100"), ("or", "100101"),
   ("xor", "100110"), ("nor", "100111"), ("slt", "101010"), ("sltu", "101011"),
   ("sll", "000000"), ("srl", "000010"), ("sra", "000011"), ("sllv", "000100"),
   ("srlv", "000110"), ("srav", "000111"), ("jr", "001000"), ("addu", "100001"),
   ("subu", "100011")]

/-- The `registers` table of `Assembler.py`:
`{f"${i}": f"{i:05b}" for i in range(32)}`. -/
def registers : List (String × String) :=
  (List.range 32).map (fun i => ("$" ++ Nat.repr i, fmtBin 5 i))

/-- Python `int(value)` as used for literal shift counts and literal jump
targets; `ValueError` is the spec's `InvalidOperand`. -/
def decOf (s : String) : Except AsmError Int :=
  match parseDec s with
  | some v => Except.ok v
  | none => Except.error AsmError.InvalidOperand

/-- `parse_immediate` with `ValueError` mapped to `InvalidOperand`. -/
def immOf (s : String) : Except AsmError Int :=
  match parse_immediate s with
  | some v => Except.ok v
  | none => Except.error AsmError.InvalidOperand

/-- `label_map[name]`; a miss is Python's `KeyError`, the spec's
`UndefinedLabel`. -/
def labelAddr (label_map : List (String × Int)) (s : String) : Except AsmError Int :=
  match label_map.lookup s with
  | some a => Except.ok a
  | none => Except.error AsmError.UndefinedLabel

/-- Register lookup; a miss is Python's `KeyError`, the spec's
`InvalidOperand`. -/
def regBits (s : String) : Except AsmError String :=
  match registers.lookup s with
  | some v => Except.ok v
  | none => Except.error AsmError.InvalidOperand

/-- Opcode-table lookup; a miss is the spec's `UnknownMnemonic`. -/
def opcBits (s : String) : Except AsmError String :=
  match opcodes.lookup s with
  | some v => Except.ok v
  | none => Except.error AsmError.UnknownMnemonic

/-- Funct-table lookup; a miss is the spec's `UnknownMnemonic`. -/
def funcBits (s : String) : Except AsmError String :=
  match func_codes.lookup s with
  | some v => Except.ok v
  | none => Except.error AsmError.UnknownMnemonic

/-- `assemble_r_type` from `Assembler.py`.  Note that the first branch
(shift-style operand layout, with a literal shift count parsed by `int`)
covers `sllv`/`srlv`/`srav` as well, exactly as in the source.  Evaluation
order of the lookups matches the Python statement order. -/
def assemble_r_type (opcode : String) (operands : List String) :
    Except AsmError String := do
  if opcode ∈ ["sll", "srl", "sra", "sllv", "srlv", "srav"] then
    let rd ← regBits (operands.getD 0 "")
    let rt ← regBits (operands.getD 1 "")
    let sh ← decOf (operands.getD 2 "")
    let func ← funcBits opcode
    let opc ← opcBits opcode
    return opc ++ "_" ++ "00000" ++ "_" ++ rt ++ "_" ++ rd ++ "_" ++ fmtBinInt 5 sh ++ "_" ++ func
  else if opcode = "jr" then
    let rs ← regBits (operands.getD 0 "")
    let func ← funcBits opcode
    let opc ← opcBits opcode
    return opc ++ "_" ++ rs ++ "_" ++ "00000" ++ "_" ++ "00000" ++ "_" ++ "00000" ++ "_" ++ func
  else
    let rd ← regBits (operands.getD 0 "")
    let rs ← regBits (operands.getD 1 "")
    let rt ← regBits (operands.getD 2 "")
    let func ← funcBits opcode
    let opc ← opcBits opcode
    return opc ++ "_" ++ rs ++ "_" ++ rt ++ "_" ++ rd ++ "_" ++ "00000" ++ "_" ++ func

/-- `assemble_i_type` from `Assembler.py`.  The label-aware branch fires only
for `beq`/`bne` with a *truthy* (nonempty) label map and a present current
address, exactly as the Python `and`-chain does; the two's-complement 16-bit
mask `& 0xFFFF` is rendered as `% 65536` on `Int` (Euclidean, nonnegative). -/
def assemble_i_type (opcode : String) (operands : List String)
    (label_map : List (String × Int)) (current_address : Option Int) :
    Except AsmError String := do
  if (operands.getD 1 "").data.contains '(' ∧ (operands.getD 1 "").data.contains ')' then
    -- Python `offset, base = operands[1].replace(')', '').split('(')`:
    -- anything but exactly two chunks is a `ValueError` (unpacking failure).
    if (chSplit '(' ((operands.getD 1 "").data.filter (fun c => decide (c ≠ ')')))).length = 2
    then
      let off ← immOf (String.mk
        ((chSplit '(' ((operands.getD 1 "").data.filter (fun c => decide (c ≠ ')')))).getD 0 []))
      let rt ← regBits (operands.getD 0 "")
      let rs ← regBits (String.mk
        ((chSplit '(' ((operands.getD 1 "").data.filter (fun c => decide (c ≠ ')')))).getD 1 []))
      let opc ← opcBits opcode
      return opc ++ "_" ++ rs ++ "_" ++ rt ++ "_" ++ fmtBin 16 (off % 65536).toNat
    else Except.error AsmError.InvalidOperand
  else if (opcode = "beq" ∨ opcode = "bne") ∧ label_map ≠ [] ∧ current_address.isSome then
    let rs ← regBits (operands.getD 0 "")
    let rt ← regBits (operands.getD 1 "")
    let label_address ← labelAddr label_map (operands.getD 2 "")
    let opc ← opcBits opcode
    return opc ++ "_" ++ rs ++ "_" ++ rt ++ "_" ++
      fmtBin 16 ((label_address - current_address.getD 0) % 65536).toNat
  else
    let rt ← regBits (operands.getD 0 "")
    let rs ← regBits (operands.getD 1 "")
    let imm ← immOf (operands.getD 2 "")
    let opc ← opcBits opcode
    return opc ++ "_" ++ rs ++ "_" ++ rt ++ "_" ++ fmtBin 16 (imm % 65536).toNat

/-- `assemble_j_type` from `Assembler.py`: with a truthy label map the
operand is looked up as a label, otherwise parsed as a literal decimal
integer; either value is formatted with `format(·, '026b')`. -/
def assemble_j_type (opcode : String) (operands : List String)
    (label_map : List (String × Int)) : Except AsmError String := do
  if label_map ≠ [] then
    let address ← labelAddr label_map (operands.getD 0 "")
    let opc ← opcBits opcode
    return opc ++ "_" ++ fmtBinInt 26 address
  else
    let k ← decOf (operands.getD 0 "")
    let opc ← opcBits opcode
    return opc ++ "_" ++ fmtBinInt 26 k

/-- List of the four lowered conditional pseudo-branches. -/
def pseudoBranches : List String := ["blt", "bgt", "ble", "bge"]

/-- `assemble_instruction` from `Assembler.py`.  The Python function returns
`None` on an unknown mnemonic (the caller then crashes); that is the spec's
`UnknownMnemonic`. -/
def assemble_instruction (opcode : String) (operands : List String)
    (label_map : List (String × Int)) (current_address : Option Int) :
    Except AsmError String :=
  if opcode = "nop" then Except.ok "00000000000000000000000000000000"
  else if opcode = "sgt" then
    assemble_r_type "slt" [operands.getD 0 "", operands.getD 2 "", operands.getD 1 ""]
  else if opcode = "move" then
    assemble_r_type "add" [operands.getD 0 "", operands.getD 1 "", "$0"]
  else if opcode = "li" then
    assemble_i_type "addi" [operands.getD 0 "", "$0", operands.getD 1 ""] [] none
  else if opcode = "blt" then do
    let slt_instruction ← assemble_r_type "slt"
      ["$25", operands.getD 0 "", operands.getD 1 ""]
    let bne_instruction ← assemble_i_type "bne"
      ["$25", "$0", operands.getD 2 ""] label_map current_address
    return slt_instruction ++ "\n" ++ bne_instruction
  else if opcode = "bgt" then do
    let slt_instruction ← assemble_r_type "slt"
      ["$25", operands.getD 1 "", operands.getD 0 ""]
    let bne_instruction ← assemble_i_type "bne"
      ["$25", "$0", operands.getD 2 ""] label_map current_address
    return slt_instruction ++ "\n" ++ bne_instruction
  else if opcode = "ble" then do
    let slt_instruction ← assemble_r_type "slt"
      ["$25", operands.getD 1 "", operands.getD 0 ""]
    let beq_instruction ← assemble_i_type "beq"
      ["$25", "$0", operands.getD 2 ""] label_map current_address
    return slt_instruction ++ "\n" ++ beq_instruction
  else if opcode = "bge" then do
    let slt_instruction ← assemble_r_type "slt"
      ["$25", operands.getD 0 "", operands.getD 1 ""]
    let beq_instruction ← assemble_i_type "beq"
      ["$25", "$0", operands.getD 2 ""] label_map current_address
    return slt_instruction ++ "\n" ++ beq_instruction
  else if opcode ∈ func_codes.map Prod.fst then
    assemble_r_type opcode operands
  else if opcode ∈ ["lw", "sw", "addi", "addiu", "andi", "ori", "xori",
      "slti", "sltiu", "beq", "bne"] then
    assemble_i_type opcode operands label_map current_address
  else if opcode = "j" ∨ opcode = "jal" then
    assemble_j_type opcode operands label_map
  else Except.error AsmError.UnknownMnemonic

/-- The underscore-stripped binary content of an encoded word
(Python `binary.replace('_', '')`). -/
def stripUnderscores (s : String) : List Char :=
  s.data.filter (fun c => decide (c ≠ '_'))

theorem lookup_mem {α β : Type} [BEq α] [LawfulBEq α] :
    ∀ {l : List (α × β)} {k : α} {v : β}, l.lookup k = some v → (k, v) ∈ l := by
  intro l
  induction l with
  | nil => intro k v h; cases h
  | cons p l ih =>
    intro k v h
    rw [List.lookup] at h
    cases hk : k == p.1 with
    | true =>
      rw [hk] at h
      cases h
      have : k = p.1 := eq_of_beq hk
      subst this
      exact List.mem_cons_self _ _
    | false =>
      rw [hk] at h
      exact List.mem_cons_of_mem _ (ih h)

/-- Shape of a successful register lookup. -/
theorem registers_lookup_shape {s v : String} (h : registers.lookup s = some v) :
    ∃ i, i < 32 ∧ s = "$" ++ Nat.repr i ∧ v = fmtBin 5 i := by
  have hm := lookup_mem h
  rw [registers] at hm
  obtain ⟨i, hi, hpair⟩ := List.mem_map.mp hm
  refine ⟨i, List.mem_range.mp hi, ?_, ?_⟩
  · exact (congrArg Prod.fst hpair).symm
  · exact (congrArg Prod.snd hpair).symm

theorem binDigitsAux_length_le :
    ∀ fuel n w, n ≤ fuel → n < 2 ^ w → (binDigitsAux fuel n).length ≤ w := by
  intro fuel
  induction fuel with
  | zero =>
    intro n w hf _
    interval_cases n
    simp [binDigitsAux]
  | succ fuel ih =>
    intro n w hf hw
    rcases Nat.eq_zero_or_pos n with rfl | hn
    · simp [binDigitsAux]
    · have hw0 : 0 < w := by
        rcases Nat.eq_zero_or_pos w with rfl | h
        · simp at hw; omega
        · exact h
      have h1 : n / 2 ≤ fuel := by omega
      have h2 : n / 2 < 2 ^ (w - 1) := by
        have : 2 ^ w = 2 ^ (w - 1) * 2 := by
          rw [← pow_succ]
          congr 1
          omega
        rw [Nat.div_lt_iff_lt_mul (by omega)]
        omega
      have := ih (n / 2) (w - 1) h1 h2
      simp only [binDigitsAux, if_neg (by omega : ¬ n = 0), List.length_append,
        List.length_singleton]
      omega

theorem natBinDigits_length_le {n w : Nat} (hw : 0 < w) (h : n < 2 ^ w) :
    (natBinDigits n).length ≤ w := by
  rcases Nat.eq_zero_or_pos n with rfl | hn
  · simpa [natBinDigits] using hw
  · rw [natBinDigits, if_neg (by omega)]
    exact binDigitsAux_length_le n n w (Nat.le_refl n) h

theorem padZeros_length {w : Nat} {l : List Char} (h : l.length ≤ w) :
    (padZeros w l).length = w := by
  simp only [padZeros, List.length_append, List.length_replicate]
  omega

/-- `format(n, '0{w}b')` has exactly `w` characters when `n < 2^w`. -/
theorem fmtBin_length {w n : Nat} (hw : 0 < w) (h : n < 2 ^ w) :
    (fmtBin w n).data.length = w :=
  padZeros_length (natBinDigits_length_le hw h)

theorem binDigitsAux_bits :
    ∀ fuel n c, c ∈ binDigitsAux fuel n → bitChar c = true := by
  intro fuel
  induction fuel with
  | zero => intro n c h; simp [binDigitsAux] at h
  | succ fuel ih =>
    intro n c h
    rcases Nat.eq_zero_or_pos n with rfl | hn
    · simp [binDigitsAux] at h
    · rw [binDigitsAux, if_neg (by omega)] at h
      rcases List.mem_append.mp h with h1 | h1
      · exact ih _ _ h1
      · rcases List.mem_singleton.mp h1 with rfl
        by_cases hb : n % 2 = 1 <;> simp [hb, bitChar]

theorem natBinDigits_bits {n : Nat} {c : Char} (h : c ∈ natBinDigits n) :
    bitChar c = true := by
  rcases Nat.eq_zero_or_pos n with rfl | hn
  · rcases List.mem_singleton.mp (by simpa [natBinDigits] using h) with rfl
    simp [bitChar]
  · rw [natBinDigits, if_neg (by omega)] at h
    exact binDigitsAux_bits n n c h

theorem fmtBin_bits {w n : Nat} {c : Char} (h : c ∈ (fmtBin w n).data) :
    bitChar c = true := by
  simp only [fmtBin, padZeros] at h
  rcases List.mem_append.mp h with h1 | h1
  · rcases List.eq_of_mem_replicate h1 with rfl
    simp [bitChar]
  · exact natBinDigits_bits h1

theorem binValue_foldl (l : List Char) :
    ∀ a : Nat, l.foldl (fun a c => 2 * a + (if c = '1' then 1 else 0)) a =
      a * 2 ^ l.length + binValue l := by
  induction l with
  | nil => intro a; simp [binValue]
  | cons c l ih =>
    intro a
    have h1 : binValue (c :: l) =
        (if c = '1' then 1 else 0) * 2 ^ l.length + binValue l := by
      rw [binValue, List.foldl_cons, ih (2 * 0 + if c = '1' then 1 else 0)]
      ring_nf
    rw [List.foldl_cons, ih (2 * a + if c = '1' then 1 else 0), h1,
      List.length_cons]
    ring

theorem binValue_append (a b : List Char) :
    binValue (a ++ b) = binValue a * 2 ^ b.length + binValue b := by
  rw [binValue, List.foldl_append, ← binValue, binValue_foldl]

theorem binValue_replicate_zero (k : Nat) :
    binValue (List.replicate k '0') = 0 := by
  induction k with
  | zero => rfl
  | succ k ih =>
    rw [List.replicate_succ, binValue, List.foldl_cons]
    simpa [binValue] using ih

theorem binValue_binDigitsAux :
    ∀ fuel n, n ≤ fuel → binValue (binDigitsAux fuel n) = n := by
  intro fuel
  induction fuel with
  | zero =>
    intro n h
    interval_cases n
    rfl
  | succ fuel ih =>
    intro n h
    rcases Nat.eq_zero_or_pos n with rfl | hn
    · rfl
    · rw [binDigitsAux, if_neg (by omega), binValue_append,
        ih (n / 2) (by omega)]
      have hmod : n % 2 = 1 ∨ n % 2 = 0 := by omega
      rcases hmod with hm | hm <;> simp [binValue, hm] <;> omega

theorem binValue_natBinDigits (n : Nat) : binValue (natBinDigits n) = n := by
  rcases Nat.eq_zero_or_pos n with rfl | hn
  · rfl
  · rw [natBinDigits, if_neg (by omega)]
    exact binValue_binDigitsAux n n (Nat.le_refl n)

/-- Round trip: the value of `format(n, '0{w}b')` is `n`. -/
theorem binValue_fmtBin (w n : Nat) : binValue (fmtBin w n).data = n := by
  rw [fmtBin]
  show binValue (padZeros w (natBinDigits n)) = n
  rw [padZeros, binValue_append, binValue_replicate_zero, binValue_natBinDigits]
  ring

/-- All register-table values are 5-character bit strings. -/
theorem registers_val_shape {s v : String} (h : registers.lookup s = some v) :
    v.data.length = 5 ∧ (∀ c ∈ v.data, bitChar c = true) := by
  obtain ⟨i, hi, -, rfl⟩ := registers_lookup_shape h
  exact ⟨fmtBin_length (by omega) (by calc i < 32 := hi
    _ = 2 ^ 5 := by norm_num), fun c hc => fmtBin_bits hc⟩

/-- No register-table key contains a parenthesis. -/
theorem registers_key_no_paren {s v : String} (h : registers.lookup s = some v) :
    s.data.contains '(' = false ∧ s.data.contains ')' = false := by
  obtain ⟨i, hi, rfl, -⟩ := registers_lookup_shape h
  have : ∀ j ∈ List.range 32,
      (("$" ++ Nat.repr j).data.contains '(' = false ∧
        ("$" ++ Nat.repr j).data.contains ')' = false) := by decide
  exact this i (List.mem_range.mpr hi)

theorem except_ok_bind {ε α β : Type} (a : α) (f : α → Except ε β) :
    (Except.ok a : Except ε α) >>= f = f a := rfl

theorem except_error_bind {ε α β : Type} (e : ε) (f : α → Except ε β) :
    (Except.error e : Except ε α) >>= f = Except.error e := rfl

theorem except_pure {ε α : Type} (a : α) :
    (pure a : Except ε α) = Except.ok a := rfl

theorem bit_ne_underscore {c : Char} (h : bitChar c = true) : c ≠ '_' := by
  rcases of_decide_eq_true h with rfl | rfl <;> decide

theorem filter_no_underscore {l : List Char} (h : ∀ c ∈ l, bitChar c = true) :
    l.filter (fun c => decide (c ≠ '_')) = l :=
  List.filter_eq_self.mpr fun c hc => decide_eq_true (bit_ne_underscore (h c hc))

/-- C6 evidence (code bug): the encoder puts the shift-by-register mnemonics
in the literal-shift-count branch, so a shift-by-register instruction with
three register operands is rejected (Python `int("$3")` raises `ValueError`)
instead of being encoded with a zero shamt field. -/
theorem c6_shift_by_register_rejected :
    assemble_r_type "sllv" ["$1", "$2", "$3"] = Except.error AsmError.InvalidOperand ∧
    assemble_r_type "srlv" ["$1", "$2", "$3"] = Except.error AsmError.InvalidOperand ∧
    assemble_r_type "srav" ["$1", "$2", "$3"] = Except.error AsmError.InvalidOperand ∧
    assemble_instruction "sllv" ["$1", "$2", "$3"] [] none =
      Except.error AsmError.InvalidOperand := by decide

/-- C7 counterexample: `add $1,$2,$3` does encode to the claimed binary
string, but the pipeline's uppercase 8-hex-digit rendering of that word is
`00430820`, not the claimed `00443820`. -/
theorem c7_counterexample :
    assemble_r_type "add" ["$1", "$2", "$3"] =
      Except.ok "000000_00010_00011_00001_00000_100000" ∧
    natToHex8 (binValue (stripUnderscores "000000_00010_00011_00001_00000_100000")) ≠
      "00443820" := by decide

/-- C7 amended: `add $1,$2,$3` encodes to binary
`000000_00010_00011_00001_00000_100000` and hex `00430820`. -/
theorem c7_add_encoding :
    assemble_r_type "add" ["$1", "$2", "$3"] =
      Except.ok "000000_00010_00011_00001_00000_100000" ∧
    natToHex8 (binValue (stripUnderscores "000000_00010_00011_00001_00000_100000")) =
      "00430820" := by decide

/-- C8 counterexample: the encoder accepts `sll $1,$2,32` and emits a word
whose underscore-stripped binary content has 33 bits (Python
`format(32, '05b')` is six characters wide). -/
theorem c8_counterexample :
    assemble_instruction "sll" ["$1", "$2", "32"] [] none =
      Except.ok "000000_00000_00010_00001_100000_000000" ∧
    (stripUnderscores "000000_00000_00010_00001_100000_000000").length = 33 := by decide

example :
    assemble_i_type "beq" ["$1", "$2", "loop"] [("loop", 5)] (some 2) =
      Except.ok "000100_00001_00010_0000000000000011" := by decide

/-- C9 counterexample: with the *empty* label table (falsy in Python), a
`beq` referencing an unbound label is routed to the immediate-parsing branch
and fails with `InvalidOperand` (Python `int("loop")` raises `ValueError`),
not `UndefinedLabel`. -/
theorem c9_counterexample :
    assemble_i_type "beq" ["$1", "$2", "loop"] [] (some 0) =
      Except.error AsmError.InvalidOperand ∧
    AsmError.InvalidOperand ≠ AsmError.UndefinedLabel := by decide

/-- C9 amended: for every *nonempty* label table and present current address,
encoding a `beq`/`bne` with valid register operands and a label unbound in
the table fails with `UndefinedLabel` and no other error kind. -/
theorem c9_undefined_label (op op0 op1 lab : String)
    (label_map : List (String × Int)) (B : Int)
    (hop : op = "beq" ∨ op = "bne")
    (hmap : label_map ≠ [])
    (h0 : (registers.lookup op0).isSome = true)
    (h1 : (registers.lookup op1).isSome = true)
    (hlab : label_map.lookup lab = none) :
    assemble_i_type op [op0, op1, lab] label_map (some B) =
      Except.error AsmError.UndefinedLabel := by
  obtain ⟨r0, hr0⟩ := Option.isSome_iff_exists.mp h0
  obtain ⟨r1, hr1⟩ := Option.isSome_iff_exists.mp h1
  have hreg0 : regBits op0 = Except.ok r0 := by rw [regBits, hr0]
  have hreg1 : regBits op1 = Except.ok r1 := by rw [regBits, hr1]
  obtain ⟨hp1, -⟩ := registers_key_no_paren hr1
  have hnotin : '(' ∉ op1.data := by
    intro hmem
    have : op1.data.contains '(' = true :=
      List.contains_iff_exists_mem_beq.mpr ⟨'(', hmem, by simp⟩
    rw [hp1] at this
    cases this
  have hcond : ¬ ('(' ∈ op1.data ∧ ')' ∈ op1.data) := fun h => hnotin h.1
  have hlabE : labelAddr label_map lab = Except.error AsmError.UndefinedLabel := by
    rw [labelAddr, hlab]
  rcases hop with rfl | rfl <;>
    simp [assemble_i_type, hcond, hmap, hreg0, hreg1, hlabE,
      except_ok_bind, except_error_bind, except_pure]

theorem bind_ok_iff {ε α β : Type} (e : Except ε α) (f : α → Except ε β) (b : β) :
    (e >>= f) = Except.ok b ↔ ∃ a, e = Except.ok a ∧ f a = Except.ok b := by
  cases e with
  | ok a => simp [except_ok_bind]
  | error e' => simp [except_error_bind]

/-- Characters that may appear in an encoded word: bits and the underscore
separator. -/
def wordChar (c : Char) : Prop := bitChar c = true ∨ c = '_'

theorem wordChar_append {s t : String} (hs : ∀ c ∈ s.data, wordChar c)
    (ht : ∀ c ∈ t.data, wordChar c) : ∀ c ∈ (s ++ t).data, wordChar c := by
  intro c hc
  rw [String.data_append] at hc
  rcases List.mem_append.mp hc with h | h
  exacts [hs c h, ht c h]

theorem wordChar_underscore : ∀ c ∈ ("_" : String).data, wordChar c := by
  intro c hc
  rcases List.mem_singleton.mp hc with rfl
  exact Or.inr rfl

theorem wordChar_of_bits {s : String} (h : ∀ c ∈ s.data, bitChar c = true) :
    ∀ c ∈ s.data, wordChar c := fun c hc => Or.inl (h c hc)

theorem wordChar_ne_newline {c : Char} (h : wordChar c) : c ≠ '\n' := by
  rcases h with h | rfl
  · rcases of_decide_eq_true h with rfl | rfl <;> decide
  · decide

theorem strip_append (s t : String) :
    stripUnderscores (s ++ t) = stripUnderscores s ++ stripUnderscores t := by
  simp [stripUnderscores, List.filter_append]

theorem strip_underscore : stripUnderscores "_" = [] := rfl

theorem strip_bits {s : String} (h : ∀ c ∈ s.data, bitChar c = true) :
    stripUnderscores s = s.data := filter_no_underscore h

theorem opcodes_vals :
    ∀ p ∈ opcodes, p.2.data.length = 6 ∧ ∀ c ∈ p.2.data, bitChar c = true := by decide

theorem func_codes_vals :
    ∀ p ∈ func_codes, p.2.data.length = 6 ∧ ∀ c ∈ p.2.data, bitChar c = true := by decide

theorem opcBits_ok {op o : String} (h : opcBits op = Except.ok o) :
    o.data.length = 6 ∧ ∀ c ∈ o.data, bitChar c = true := by
  rw [opcBits] at h
  cases hl : opcodes.lookup op with
  | some v =>
    rw [hl] at h
    cases h
    exact opcodes_vals _ (lookup_mem hl)
  | none => rw [hl] at h; cases h

theorem funcBits_ok {op o : String} (h : funcBits op = Except.ok o) :
    o.data.length = 6 ∧ ∀ c ∈ o.data, bitChar c = true := by
  rw [funcBits] at h
  cases hl : func_codes.lookup op with
  | some v =>
    rw [hl] at h
    cases h
    exact func_codes_vals _ (lookup_mem hl)
  | none => rw [hl] at h; cases h

theorem regBits_ok {s v : String} (h : regBits s = Except.ok v) :
    registers.lookup s = some v := by
  rw [regBits] at h
  cases hl : registers.lookup s with
  | some w => rw [hl] at h; cases h; rfl
  | none => rw [hl] at h; cases h

theorem regBits_ok_shape {s v : String} (h : regBits s = Except.ok v) :
    v.data.length = 5 ∧ ∀ c ∈ v.data, bitChar c = true :=
  registers_val_shape (regBits_ok h)

theorem decOf_ok {s : String} {k : Int} (h : decOf s = Except.ok k) :
    parseDec s = some k := by
  rw [decOf] at h
  cases hp : parseDec s with
  | some v => rw [hp] at h; cases h; rfl
  | none => rw [hp] at h; cases h

theorem labelAddr_ok {m : List (String × Int)} {s : String} {a : Int}
    (h : labelAddr m s = Except.ok a) : m.lookup s = some a := by
  rw [labelAddr] at h
  cases hp : m.lookup s with
  | some v => rw [hp] at h; cases h; rfl
  | none => rw [hp] at h; cases h

theorem fmtBinInt_nonneg {w : Nat} {z : Int} (h : 0 ≤ z) :
    fmtBinInt w z = fmtBin w z.toNat := by
  rw [fmtBinInt, if_neg (not_lt.mpr h)]

/-- Shape facts for a six-field R-type word string. -/
theorem rword_facts {o f1 f2 f3 f4 fn : String}
    (ho : o.data.length = 6) (hob : ∀ c ∈ o.data, bitChar c = true)
    (h1 : f1.data.length = 5) (h1b : ∀ c ∈ f1.data, bitChar c = true)
    (h2 : f2.data.length = 5) (h2b : ∀ c ∈ f2.data, bitChar c = true)
    (h3 : f3.data.length = 5) (h3b : ∀ c ∈ f3.data, bitChar c = true)
    (h4 : f4.data.length = 5) (h4b : ∀ c ∈ f4.data, bitChar c = true)
    (hn : fn.data.length = 6) (hnb : ∀ c ∈ fn.data, bitChar c = true) :
    (stripUnderscores
        (o ++ "_" ++ f1 ++ "_" ++ f2 ++ "_" ++ f3 ++ "_" ++ f4 ++ "_" ++ fn)).length = 32 ∧
    ∀ c ∈ (o ++ "_" ++ f1 ++ "_" ++ f2 ++ "_" ++ f3 ++ "_" ++ f4 ++ "_" ++ fn).data,
      wordChar c := by
  constructor
  · simp only [strip_append, strip_underscore, List.append_nil, strip_bits hob,
      strip_bits h1b, strip_bits h2b, strip_bits h3b, strip_bits h4b, strip_bits hnb,
      List.length_append]
    omega
  · exact wordChar_append (wordChar_append (wordChar_append (wordChar_append
      (wordChar_append (wordChar_append (wordChar_append (wordChar_append
        (wordChar_append (wordChar_append (wordChar_of_bits hob) wordChar_underscore)
          (wordChar_of_bits h1b)) wordChar_underscore) (wordChar_of_bits h2b))
        wordChar_underscore) (wordChar_of_bits h3b)) wordChar_underscore)
      (wordChar_of_bits h4b)) wordChar_underscore) (wordChar_of_bits hnb)

/-- Shape facts for a four-field I-type word string. -/
theorem iword_facts {o f1 f2 im : String}
    (ho : o.data.length = 6) (hob : ∀ c ∈ o.data, bitChar c = true)
    (h1 : f1.data.length = 5) (h1b : ∀ c ∈ f1.data, bitChar c = true)
    (h2 : f2.data.length = 5) (h2b : ∀ c ∈ f2.data, bitChar c = true)
    (hi : im.data.length = 16) (hib : ∀ c ∈ im.data, bitChar c = true) :
    (stripUnderscores (o ++ "_" ++ f1 ++ "_" ++ f2 ++ "_" ++ im)).length = 32 ∧
    ∀ c ∈ (o ++ "_" ++ f1 ++ "_" ++ f2 ++ "_" ++ im).data, wordChar c := by
  constructor
  · simp only [strip_append, strip_underscore, List.append_nil, strip_bits hob,
      strip_bits h1b, strip_bits h2b, strip_bits hib, List.length_append]
    omega
  · exact wordChar_append (wordChar_append (wordChar_append (wordChar_append
      (wordChar_append (wordChar_append (wordChar_of_bits hob) wordChar_underscore)
        (wordChar_of_bits h1b)) wordChar_underscore) (wordChar_of_bits h2b))
      wordChar_underscore) (wordChar_of_bits hib)

/-- Shape facts for a two-field J-type word string. -/
theorem jword_facts {o ad : String}
    (ho : o.data.length = 6) (hob : ∀ c ∈ o.data, bitChar c = true)
    (ha : ad.data.length = 26) (hab : ∀ c ∈ ad.data, bitChar c = true) :
    (stripUnderscores (o ++ "_" ++ ad)).length = 32 ∧
    ∀ c ∈ (o ++ "_" ++ ad).data, wordChar c := by
  constructor
  · simp only [strip_append, strip_underscore, List.append_nil, strip_bits hob,
      strip_bits hab, List.length_append]
    omega
  · exact wordChar_append (wordChar_append (wordChar_of_bits hob) wordChar_underscore)
      (wordChar_of_bits hab)

/-- Any word successfully produced by `assemble_r_type` has 32 bits once
underscores are stripped, and contains only bits and underscores — provided
any literal shift count parsed in the shift branch lies in `[0, 32)`. -/
theorem assemble_r_type_ok {op : String} {operands : List String} {b : String}
    (hok : assemble_r_type op operands = Except.ok b)
    (hshift : op ∈ ["sll", "srl", "sra", "sllv", "srlv", "srav"] →
      ∀ k : Int, parseDec (operands.getD 2 "") = some k → 0 ≤ k ∧ k < 32) :
    (stripUnderscores b).length = 32 ∧ ∀ c ∈ b.data, wordChar c := by
  rw [assemble_r_type] at hok
  have hzeros : ∀ c ∈ ("00000" : String).data, bitChar c = true := by decide
  have hzlen : ("00000" : String).data.length = 5 := by decide
  by_cases h1 : op ∈ ["sll", "srl", "sra", "sllv", "srlv", "srav"]
  · rw [if_pos h1] at hok
    rw [bind_ok_iff] at hok
    obtain ⟨rd, hrd, hok⟩ := hok
    rw [bind_ok_iff] at hok
    obtain ⟨rt, hrt, hok⟩ := hok
    rw [bind_ok_iff] at hok
    obtain ⟨k, hk, hok⟩ := hok
    rw [bind_ok_iff] at hok
    obtain ⟨fn, hfn, hok⟩ := hok
    rw [bind_ok_iff] at hok
    obtain ⟨opc, hopc, hok⟩ := hok
    rw [except_pure, Except.ok.injEq] at hok
    subst hok
    obtain ⟨hrdl, hrdb⟩ := regBits_ok_shape hrd
    obtain ⟨hrtl, hrtb⟩ := regBits_ok_shape hrt
    obtain ⟨hfnl, hfnb⟩ := funcBits_ok hfn
    obtain ⟨hopl, hopb⟩ := opcBits_ok hopc
    obtain ⟨hk0, hk32⟩ := hshift h1 k (decOf_ok hk)
    rw [fmtBinInt_nonneg hk0]
    have hlt : k.toNat < 2 ^ 5 := by
      have : (2 : Nat) ^ 5 = 32 := by norm_num
      omega
    exact rword_facts hopl hopb hzlen hzeros hrtl hrtb hrdl hrdb
      (fmtBin_length (by norm_num) hlt) (fun c hc => fmtBin_bits hc) hfnl hfnb
  · rw [if_neg h1] at hok
    by_cases h2 : op = "jr"
    · rw [if_pos h2] at hok
      rw [bind_ok_iff] at hok
      obtain ⟨rs, hrs, hok⟩ := hok
      rw [bind_ok_iff] at hok
      obtain ⟨fn, hfn, hok⟩ := hok
      rw [bind_ok_iff] at hok
      obtain ⟨opc, hopc, hok⟩ := hok
      rw [except_pure, Except.ok.injEq] at hok
      subst hok
      obtain ⟨hrsl, hrsb⟩ := regBits_ok_shape hrs
      obtain ⟨hfnl, hfnb⟩ := funcBits_ok hfn
      obtain ⟨hopl, hopb⟩ := opcBits_ok hopc
      exact rword_facts hopl hopb hrsl hrsb hzlen hzeros hzlen hzeros hzlen hzeros
        hfnl hfnb
    · rw [if_neg h2] at hok
      rw [bind_ok_iff] at hok
      obtain ⟨rd, hrd, hok⟩ := hok
      rw [bind_ok_iff] at hok
      obtain ⟨rs, hrs, hok⟩ := hok
      rw [bind_ok_iff] at hok
      obtain ⟨rt, hrt, hok⟩ := hok
      rw [bind_ok_iff] at hok
      obtain ⟨fn, hfn, hok⟩ := hok
      rw [bind_ok_iff] at hok
      obtain ⟨opc, hopc, hok⟩ := hok
      rw [except_pure, Except.ok.injEq] at hok
      subst hok
      obtain ⟨hrdl, hrdb⟩ := regBits_ok_shape hrd
      obtain ⟨hrsl, hrsb⟩ := regBits_ok_shape hrs
      obtain ⟨hrtl, hrtb⟩ := regBits_ok_shape hrt
      obtain ⟨hfnl, hfnb⟩ := funcBits_ok hfn
      obtain ⟨hopl, hopb⟩ := opcBits_ok hopc
      exact rword_facts hopl hopb hrsl hrsb hrtl hrtb hrdl hrdb hzlen hzeros hfnl hfnb

/-- The 16-bit mask `& 0xFFFF` always lands below `2^16`. -/
theorem mask16_lt (z : Int) : (z % 65536).toNat < 2 ^ 16 := by
  have h1 : 0 ≤ z % 65536 := Int.emod_nonneg _ (by norm_num)
  have h2 : z % 65536 < 65536 := Int.emod_lt_of_pos _ (by norm_num)
  have : (2 : Nat) ^ 16 = 65536 := by norm_num
  omega

/-- Any word successfully produced by `assemble_i_type` has 32 bits once
underscores are stripped (all immediates are masked to 16 bits), and contains
only bits and underscores. -/
theorem assemble_i_type_ok {op : String} {operands : List String}
    {label_map : List (String × Int)} {addr : Option Int} {b : String}
    (hok : assemble_i_type op operands label_map addr = Except.ok b) :
    (stripUnderscores b).length = 32 ∧ ∀ c ∈ b.data, wordChar c := by
  rw [assemble_i_type] at hok
  by_cases h1 : ((operands.getD 1 "").data.contains '(' = true ∧
      (operands.getD 1 "").data.contains ')' = true)
  · rw [if_pos h1] at hok
    by_cases h2 : (chSplit '('
        ((operands.getD 1 "").data.filter (fun c => decide (c ≠ ')')))).length = 2
    · rw [if_pos h2] at hok
      rw [bind_ok_iff] at hok
      obtain ⟨off, hoff, hok⟩ := hok
      rw [bind_ok_iff] at hok
      obtain ⟨rt, hrt, hok⟩ := hok
      rw [bind_ok_iff] at hok
      obtain ⟨rs, hrs, hok⟩ := hok
      rw [bind_ok_iff] at hok
      obtain ⟨opc, hopc, hok⟩ := hok
      rw [except_pure, Except.ok.injEq] at hok
      subst hok
      obtain ⟨hrtl, hrtb⟩ := regBits_ok_shape hrt
      obtain ⟨hrsl, hrsb⟩ := regBits_ok_shape hrs
      obtain ⟨hopl, hopb⟩ := opcBits_ok hopc
      exact iword_facts hopl hopb hrsl hrsb hrtl hrtb
        (fmtBin_length (by norm_num) (mask16_lt off)) (fun c hc => fmtBin_bits hc)
    · rw [if_neg h2] at hok
      cases hok
  · rw [if_neg h1] at hok
    by_cases h2 : ((op = "beq" ∨ op = "bne") ∧ label_map ≠ [] ∧ addr.isSome = true)
    · rw [if_pos h2] at hok
      rw [bind_ok_iff] at hok
      obtain ⟨rs, hrs, hok⟩ := hok
      rw [bind_ok_iff] at hok
      obtain ⟨rt, hrt, hok⟩ := hok
      rw [bind_ok_iff] at hok
      obtain ⟨la, hla, hok⟩ := hok
      rw [bind_ok_iff] at hok
      obtain ⟨opc, hopc, hok⟩ := hok
      rw [except_pure, Except.ok.injEq] at hok
      subst hok
      obtain ⟨hrtl, hrtb⟩ := regBits_ok_shape hrt
      obtain ⟨hrsl, hrsb⟩ := regBits_ok_shape hrs
      obtain ⟨hopl, hopb⟩ := opcBits_ok hopc
      exact iword_facts hopl hopb hrsl hrsb hrtl hrtb
        (fmtBin_length (by norm_num) (mask16_lt _)) (fun c hc => fmtBin_bits hc)
    · rw [if_neg h2] at hok
      rw [bind_ok_iff] at hok
      obtain ⟨rt, hrt, hok⟩ := hok
      rw [bind_ok_iff] at hok
      obtain ⟨rs, hrs, hok⟩ := hok
      rw [bind_ok_iff] at hok
      obtain ⟨imm, himm, hok⟩ := hok
      rw [bind_ok_iff] at hok
      obtain ⟨opc, hopc, hok⟩ := hok
      rw [except_pure, Except.ok.injEq] at hok
      subst hok
      obtain ⟨hrtl, hrtb⟩ := regBits_ok_shape hrt
      obtain ⟨hrsl, hrsb⟩ := regBits_ok_shape hrs
      obtain ⟨hopl, hopb⟩ := opcBits_ok hopc
      exact iword_facts hopl hopb hrsl hrsb hrtl hrtb
        (fmtBin_length (by norm_num) (mask16_lt imm)) (fun c hc => fmtBin_bits hc)

/-- Any word successfully produced by `assemble_j_type` has 32 bits once
underscores are stripped and contains only bits and underscores — provided
the jump target value (label-resolved or literal) lies in `[0, 2^26)`. -/
theorem assemble_j_type_ok {op : String} {operands : List String}
    {label_map : List (String × Int)} {b : String}
    (hok : assemble_j_type op operands label_map = Except.ok b)
    (hlab : ∀ a : Int, label_map.lookup (operands.getD 0 "") = some a →
      0 ≤ a ∧ a < 2 ^ 26)
    (hlit : ∀ k : Int, parseDec (operands.getD 0 "") = some k →
      0 ≤ k ∧ k < 2 ^ 26) :
    (stripUnderscores b).length = 32 ∧ ∀ c ∈ b.data, wordChar c := by
  have hpow : (2 : Int) ^ 26 = 67108864 := by norm_num
  have hpn : (2 : Nat) ^ 26 = 67108864 := by norm_num
  rw [assemble_j_type] at hok
  by_cases h1 : label_map ≠ []
  · rw [if_pos h1] at hok
    rw [bind_ok_iff] at hok
    obtain ⟨a, ha, hok⟩ := hok
    rw [bind_ok_iff] at hok
    obtain ⟨opc, hopc, hok⟩ := hok
    rw [except_pure, Except.ok.injEq] at hok
    subst hok
    obtain ⟨h0, hlt⟩ := hlab a (labelAddr_ok ha)
    obtain ⟨hopl, hopb⟩ := opcBits_ok hopc
    rw [fmtBinInt_nonneg h0]
    have : a.toNat < 2 ^ 26 := by omega
    exact jword_facts hopl hopb (fmtBin_length (by norm_num) this)
      (fun c hc => fmtBin_bits hc)
  · rw [if_neg h1] at hok
    rw [bind_ok_iff] at hok
    obtain ⟨k, hk, hok⟩ := hok
    rw [bind_ok_iff] at hok
    obtain ⟨opc, hopc, hok⟩ := hok
    rw [except_pure, Except.ok.injEq] at hok
    subst hok
    obtain ⟨h0, hlt⟩ := hlit k (decOf_ok hk)
    obtain ⟨hopl, hopb⟩ := opcBits_ok hopc
    rw [fmtBinInt_nonneg h0]
    have : k.toNat < 2 ^ 26 := by omega
    exact jword_facts hopl hopb (fmtBin_length (by norm_num) this)
      (fun c hc => fmtBin_bits hc)

theorem chSplitP_no_sep {p : Char → Bool} :
    ∀ {l : List Char}, (∀ x ∈ l, p x = false) → chSplitP p l = [l] := by
  intro l
  induction l with
  | nil => intro _; rfl
  | cons x l2 ih =>
    intro h
    rw [chSplitP, if_neg (by simp [h x (List.mem_cons_self _ _)]),
      ih (fun y hy => h y (List.mem_cons_of_mem _ hy))]

theorem chSplitP_append_cons {p : Char → Bool} {a : List Char} {c : Char}
    {b : List Char} (hpc : p c = true) (ha : ∀ x ∈ a, p x = false) :
    chSplitP p (a ++ c :: b) = a :: chSplitP p b := by
  induction a with
  | nil =>
    rw [List.nil_append, chSplitP, if_pos hpc]
  | cons x a ih =>
    rw [List.cons_append, chSplitP,
      if_neg (by simp [ha x (List.mem_cons_self _ _)]),
      ih (fun y hy => ha y (List.mem_cons_of_mem _ hy))]

/-- Splitting a two-word (newline-joined) encoding recovers the two words. -/
theorem chSplit_newline_pair (s1 s2 : String)
    (h1 : ∀ c ∈ s1.data, wordChar c) (h2 : ∀ c ∈ s2.data, wordChar c) :
    chSplit '\n' (s1 ++ "\n" ++ s2).data = [s1.data, s2.data] := by
  have e : (s1 ++ "\n" ++ s2).data = s1.data ++ '\n' :: s2.data := by
    simp [String.data_append]
  rw [e, chSplit,
    chSplitP_append_cons (by decide)
      (fun x hx => decide_eq_false (wordChar_ne_newline (h1 x hx))),
    chSplitP_no_sep (fun x hx => decide_eq_false (wordChar_ne_newline (h2 x hx)))]

/-- A single newline-free word splits into itself. -/
theorem chSplit_newline_single (s : String) (h : ∀ c ∈ s.data, wordChar c) :
    chSplit '\n' s.data = [s.data] :=
  chSplitP_no_sep (fun x hx => decide_eq_false (wordChar_ne_newline (h x hx)))

/-- C5: a `beq`/`bne` whose target label is bound to address `A`, encoded at
current address `B`, yields a word whose low 16 bits are the two's-complement
16-bit value of `A − B`. -/
theorem c5_branch_offset (op op0 op1 lab : String)
    (label_map : List (String × Int)) (A B : Int) (s : String)
    (hop : op = "beq" ∨ op = "bne")
    (h0 : (registers.lookup op0).isSome = true)
    (h1 : (registers.lookup op1).isSome = true)
    (hA : label_map.lookup lab = some A)
    (hs : assemble_i_type op [op0, op1, lab] label_map (some B) = Except.ok s) :
    binValue (stripUnderscores s) % 65536 = ((A - B) % 65536).toNat := by
  obtain ⟨r0, hr0⟩ := Option.isSome_iff_exists.mp h0
  obtain ⟨r1, hr1⟩ := Option.isSome_iff_exists.mp h1
  have hreg0 : regBits op0 = Except.ok r0 := by rw [regBits, hr0]
  have hreg1 : regBits op1 = Except.ok r1 := by rw [regBits, hr1]
  obtain ⟨hp1, -⟩ := registers_key_no_paren hr1
  have hnotin : '(' ∉ op1.data := by
    intro hmem
    have : op1.data.contains '(' = true :=
      List.contains_iff_exists_mem_beq.mpr ⟨'(', hmem, by simp⟩
    rw [hp1] at this
    cases this
  have hcond : ¬ ('(' ∈ op1.data ∧ ')' ∈ op1.data) := fun h => hnotin h.1
  have hmap : label_map ≠ [] := by
    intro hcon; rw [hcon] at hA; cases hA
  obtain ⟨-, hbits0⟩ := registers_val_shape hr0
  obtain ⟨-, hbits1⟩ := registers_val_shape hr1
  have him : ((A - B) % 65536).toNat < 2 ^ 16 := by
    have h1' : 0 ≤ (A - B) % 65536 := Int.emod_nonneg _ (by norm_num)
    have h2' : (A - B) % 65536 < 65536 := Int.emod_lt_of_pos _ (by norm_num)
    omega
  have hfilt0 : r0.data.filter (fun c => decide (c ≠ '_')) = r0.data :=
    filter_no_underscore hbits0
  have hfilt1 : r1.data.filter (fun c => decide (c ≠ '_')) = r1.data :=
    filter_no_underscore hbits1
  have hfiltI : (fmtBin 16 ((A - B) % 65536).toNat).data.filter
      (fun c => decide (c ≠ '_')) = (fmtBin 16 ((A - B) % 65536).toNat).data :=
    filter_no_underscore fun c hc => fmtBin_bits hc
  have hlen16 : (fmtBin 16 ((A - B) % 65536).toNat).data.length = 16 :=
    fmtBin_length (by norm_num) him
  have hvalI : binValue (fmtBin 16 ((A - B) % 65536).toNat).data =
      ((A - B) % 65536).toNat := binValue_fmtBin _ _
  have hpow : (2 : Nat) ^ 16 = 65536 := by norm_num
  rcases hop with rfl | rfl
  · have hopc : opcBits "beq" = Except.ok "000100" := rfl
    have hlabA : labelAddr label_map lab = Except.ok A := by rw [labelAddr, hA]
    simp [assemble_i_type, hcond, hmap, hreg0, hreg1, hlabA, hopc,
      except_ok_bind, except_error_bind, except_pure] at hs
    subst hs
    simp only [stripUnderscores, String.data_append, List.filter_append,
      hfilt0, hfilt1, hfiltI,
      show (String.data "_").filter (fun c => decide (c ≠ '_')) = [] from rfl,
      List.append_nil]
    rw [binValue_append, hlen16, hvalI, hpow]
    omega
  · have hopc : opcBits "bne" = Except.ok "000101" := rfl
    have hlabA : labelAddr label_map lab = Except.ok A := by rw [labelAddr, hA]
    simp [assemble_i_type, hcond, hmap, hreg0, hreg1, hlabA, hopc,
      except_ok_bind, except_error_bind, except_pure] at hs
    subst hs
    simp only [stripUnderscores, String.data_append, List.filter_append,
      hfilt0, hfilt1, hfiltI,
      show (String.data "_").filter (fun c => decide (c ≠ '_')) = [] from rfl,
      List.append_nil]
    rw [binValue_append, hlen16, hvalI, hpow]
    omega

theorem func_keys_not_pseudo :
    ∀ o ∈ func_codes.map Prod.fst, o ∉ pseudoBranches := by decide

theorem i_keys_not_pseudo :
    ∀ o ∈ ["lw", "sw", "addi", "addiu", "andi", "ori", "xori",
      "slti", "sltiu", "beq", "bne"], o ∉ pseudoBranches := by decide

/-- C8 (amended): every word accepted by the encoder has an underscore-
stripped binary content of exactly 32 bits — one word per primitive mnemonic
and exactly two newline-joined words per lowered conditional pseudo-branch —
provided literal shift counts lie in `[0, 32)` and jump target values in
`[0, 2^26)` (the unamended claim fails on `sll $1,$2,32`, see the
counterexample). -/
theorem c8_word_lengths (op : String) (operands : List String)
    (label_map : List (String × Int)) (addr : Option Int) (b : String)
    (hok : assemble_instruction op operands label_map addr = Except.ok b)
    (hshift : op ∈ ["sll", "srl", "sra", "sllv", "srlv", "srav"] →
      ∀ k : Int, parseDec (operands.getD 2 "") = some k → 0 ≤ k ∧ k < 32)
    (hjump : op = "j" ∨ op = "jal" →
      (∀ a : Int, label_map.lookup (operands.getD 0 "") = some a →
        0 ≤ a ∧ a < 2 ^ 26) ∧
      (∀ k : Int, parseDec (operands.getD 0 "") = some k →
        0 ≤ k ∧ k < 2 ^ 26)) :
    if op ∈ pseudoBranches
    then (chSplit '\n' b.data).map
          (fun w => (w.filter (fun c => decide (c ≠ '_'))).length) = [32, 32]
    else (stripUnderscores b).length = 32 := by
  rw [assemble_instruction] at hok
  by_cases h1 : op = "nop"
  · subst h1
    rw [if_pos rfl] at hok
    cases hok
    rw [if_neg (by decide : ¬ ("nop" ∈ pseudoBranches))]
    decide
  · rw [if_neg h1] at hok
    by_cases h2 : op = "sgt"
    · subst h2
      rw [if_pos rfl] at hok
      rw [if_neg (by decide : ¬ ("sgt" ∈ pseudoBranches))]
      exact (assemble_r_type_ok hok (fun hmem => absurd hmem (by decide))).1
    · rw [if_neg h2] at hok
      by_cases h3 : op = "move"
      · subst h3
        rw [if_pos rfl] at hok
        rw [if_neg (by decide : ¬ ("move" ∈ pseudoBranches))]
        exact (assemble_r_type_ok hok (fun hmem => absurd hmem (by decide))).1
      · rw [if_neg h3] at hok
        by_cases h4 : op = "li"
        · subst h4
          rw [if_pos rfl] at hok
          rw [if_neg (by decide : ¬ ("li" ∈ pseudoBranches))]
          exact (assemble_i_type_ok hok).1
        · rw [if_neg h4] at hok
          by_cases h5 : op = "blt"
          · subst h5
            rw [if_pos rfl] at hok
            rw [bind_ok_iff] at hok
            obtain ⟨s1, hs1, hok⟩ := hok
            rw [bind_ok_iff] at hok
            obtain ⟨s2, hs2, hok⟩ := hok
            rw [except_pure, Except.ok.injEq] at hok
            subst hok
            obtain ⟨hl1, hc1⟩ := assemble_r_type_ok hs1
              (fun hmem => absurd hmem (by decide))
            obtain ⟨hl2, hc2⟩ := assemble_i_type_ok hs2
            rw [if_pos (by decide : "blt" ∈ pseudoBranches),
              chSplit_newline_pair s1 s2 hc1 hc2]
            simp only [List.map_cons, List.map_nil]
            rw [show (s1.data.filter (fun c => decide (c ≠ '_'))).length =
                (stripUnderscores s1).length from rfl,
              show (s2.data.filter (fun c => decide (c ≠ '_'))).length =
                (stripUnderscores s2).length from rfl, hl1, hl2]
          · rw [if_neg h5] at hok
            by_cases h6 : op = "bgt"
            · subst h6
              rw [if_pos rfl] at hok
              rw [bind_ok_iff] at hok
              obtain ⟨s1, hs1, hok⟩ := hok
              rw [bind_ok_iff] at hok
              obtain ⟨s2, hs2, hok⟩ := hok
              rw [except_pure, Except.ok.injEq] at hok
              subst hok
              obtain ⟨hl1, hc1⟩ := assemble_r_type_ok hs1
                (fun hmem => absurd hmem (by decide))
              obtain ⟨hl2, hc2⟩ := assemble_i_type_ok hs2
              rw [if_pos (by decide : "bgt" ∈ pseudoBranches),
                chSplit_newline_pair s1 s2 hc1 hc2]
              simp only [List.map_cons, List.map_nil]
              rw [show (s1.data.filter (fun c => decide (c ≠ '_'))).length =
                  (stripUnderscores s1).length from rfl,
                show (s2.data.filter (fun c => decide (c ≠ '_'))).length =
                  (stripUnderscores s2).length from rfl, hl1, hl2]
            · rw [if_neg h6] at hok
              by_cases h7 : op = "ble"
              · subst h7
                rw [if_pos rfl] at hok
                rw [bind_ok_iff] at hok
                obtain ⟨s1, hs1, hok⟩ := hok
                rw [bind_ok_iff] at hok
                obtain ⟨s2, hs2, hok⟩ := hok
                rw [except_pure, Except.ok.injEq] at hok
                subst hok
                obtain ⟨hl1, hc1⟩ := assemble_r_type_ok hs1
                  (fun hmem => absurd hmem (by decide))
                obtain ⟨hl2, hc2⟩ := assemble_i_type_ok hs2
                rw [if_pos (by decide : "ble" ∈ pseudoBranches),
                  chSplit_newline_pair s1 s2 hc1 hc2]
                simp only [List.map_cons, List.map_nil]
                rw [show (s1.data.filter (fun c => decide (c ≠ '_'))).length =
                    (stripUnderscores s1).length from rfl,
                  show (s2.data.filter (fun c => decide (c ≠ '_'))).length =
                    (stripUnderscores s2).length from rfl, hl1, hl2]
              · rw [if_neg h7] at hok
                by_cases h8 : op = "bge"
                · subst h8
                  rw [if_pos rfl] at hok
                  rw [bind_ok_iff] at hok
                  obtain ⟨s1, hs1, hok⟩ := hok
                  rw [bind_ok_iff] at hok
                  obtain ⟨s2, hs2, hok⟩ := hok
                  rw [except_pure, Except.ok.injEq] at hok
                  subst hok
                  obtain ⟨hl1, hc1⟩ := assemble_r_type_ok hs1
                    (fun hmem => absurd hmem (by decide))
                  obtain ⟨hl2, hc2⟩ := assemble_i_type_ok hs2
                  rw [if_pos (by decide : "bge" ∈ pseudoBranches),
                    chSplit_newline_pair s1 s2 hc1 hc2]
                  simp only [List.map_cons, List.map_nil]
                  rw [show (s1.data.filter (fun c => decide (c ≠ '_'))).length =
                      (stripUnderscores s1).length from rfl,
                    show (s2.data.filter (fun c => decide (c ≠ '_'))).length =
                      (stripUnderscores s2).length from rfl, hl1, hl2]
                · rw [if_neg h8] at hok
                  by_cases h9 : op ∈ func_codes.map Prod.fst
                  · rw [if_pos h9] at hok
                    rw [if_neg (func_keys_not_pseudo op h9)]
                    exact (assemble_r_type_ok hok hshift).1
                  · rw [if_neg h9] at hok
                    by_cases h10 : op ∈ ["lw", "sw", "addi", "addiu", "andi",
                        "ori", "xori", "slti", "sltiu", "beq", "bne"]
                    · rw [if_pos h10] at hok
                      rw [if_neg (i_keys_not_pseudo op h10)]
                      exact (assemble_i_type_ok hok).1
                    · rw [if_neg h10] at hok
                      by_cases h11 : op = "j" ∨ op = "jal"
                      · rw [if_pos h11] at hok
                        obtain ⟨hja, hjl⟩ := hjump h11
                        have : op ∉ pseudoBranches := by
                          rcases h11 with rfl | rfl <;> decide
                        rw [if_neg this]
                        exact (assemble_j_type_ok hok hja hjl).1
                      · rw [if_neg h11] at hok
                        cases hok

/-- Witness for C5 at a concrete branch: `beq $1,$2,loop` with `loop` at
address 5, encoded at address 2, gives immediate 3. -/
theorem c5_witness :
    List.lookup "loop" [("loop", (5 : Int))] = some 5 ∧
    assemble_i_type "beq" ["$1", "$2", "loop"] [("loop", 5)] (some 2) =
      Except.ok "000100_00001_00010_0000000000000011" ∧
    binValue (stripUnderscores "000100_00001_00010_0000000000000011") % 65536 =
      (((5 : Int) - 2) % 65536).toNat :=
  ⟨by decide, by decide,
    c5_branch_offset "beq" "$1" "$2" "loop" [("loop", 5)] 5 2
      "000100_00001_00010_0000000000000011" (Or.inl rfl) (by decide) (by decide)
      (by decide) (by decide)⟩

/-- Witness for C9 at a concrete input: nonempty table not binding `loop`. -/
theorem c9_witness :
    ([("x", (0 : Int))] ≠ ([] : List (String × Int))) ∧
    List.lookup "loop" [("x", (0 : Int))] = none ∧
    assemble_i_type "beq" ["$1", "$2", "loop"] [("x", 0)] (some 0) =
      Except.error AsmError.UndefinedLabel :=
  ⟨by decide, by decide,
    c9_undefined_label "beq" "$1" "$2" "loop" [("x", 0)] 0 (Or.inl rfl)
      (by decide) (by decide) (by decide) (by decide)⟩

/-- Witness for C8 at a concrete pseudo-branch: `blt $1,$2,L` lowers to two
32-bit words. -/
theorem c8_witness :
    assemble_instruction "blt" ["$1", "$2", "L"] [("L", 3)] (some 1) =
      Except.ok
        "000000_00001_00010_11001_00000_101010\n000101_11001_00000_0000000000000010" ∧
    (if "blt" ∈ pseudoBranches
     then (chSplit '\n'
          ("000000_00001_00010_11001_00000_101010\n000101_11001_00000_0000000000000010" :
            String).data).map
          (fun w => (w.filter (fun c => decide (c ≠ '_'))).length) = [32, 32]
     else (stripUnderscores
        ("000000_00001_00010_11001_00000_101010\n000101_11001_00000_0000000000000010" :
          String)).length = 32) :=
  ⟨by decide,
    c8_word_lengths "blt" ["$1", "$2", "L"] [("L", 3)] (some 1) _ (by decide)
      (fun hmem => absurd hmem (by decide)) (fun hj => absurd hj (by decide))⟩

/-!
The assembler `main` pipeline (`Assembler.py` lines 125-171): pass 1 builds
the label map with a running instruction-slot counter; pass 2 re-walks the
source emitting one output record per encoded word, pre-incrementing the
address for the four lowered conditional pseudo-branches.
-/

/-- The comment-stripped, trimmed instruction text of a raw source line
(Python `line.strip()` followed by `line.split('#')[0].strip()`). -/
def instrText (rawLine : String) : List Char :=
  trimChars ((chSplit '#' (trimChars rawLine.data)).headD [])

/-- One output record of pass 2:
`f"{line} --> [ binary: {binary}, hex: {int(binary.replace('_',''), 2):08X} ]"`.
A non-bit character in the stripped binary is Python's `ValueError`. -/
def renderRecord (line : List Char) (w : List Char) : Except AsmError String :=
  match binValOpt (w.filter (fun c => decide (c ≠ '_'))) with
  | some v =>
    Except.ok (String.mk line ++ " --> [ binary: " ++ String.mk w ++ ", hex: " ++
      natToHex8 v ++ " ]")
  | none => Except.error AsmError.InvalidOperand

/-- Render every word of an encoding (the `for binary_instruction in
binary_instructions.splitlines()` loop). -/
def renderAll (line : List Char) : List (List Char) → Except AsmError (List String)
  | [] => Except.ok []
  | w :: ws => do
    let r ← renderRecord line w
    let rs ← renderAll line ws
    return r :: rs

/-- One line of pass 2 of `main`: skip label-definition and full-comment
lines, strip trailing comments, pre-increment the address for the four
lowered conditional pseudo-branches, encode, emit one record per word, then
advance the address by exactly 1. -/
def pass2Step (label_map : List (String × Int)) (pc : Int) (rawLine : String) :
    Except AsmError (List String × Int) :=
  if (trimChars rawLine.data).getLast? = some ':' ∨
      (trimChars rawLine.data).head? = some '#' then Except.ok ([], pc)
  else if trimChars rawLine.data = [] then Except.ok ([], pc)
  else if instrText rawLine = [] then Except.ok ([], pc)
  else
    match parse_instruction (String.mk (instrText rawLine)) with
    | none => Except.error AsmError.MalformedLine
    | some (opcode, operands) =>
      match assemble_instruction opcode operands label_map
          (some (if opcode ∈ pseudoBranches then pc + 1 else pc)) with
      | Except.error e => Except.error e
      | Except.ok bin =>
        match renderAll (instrText rawLine) (chSplit '\n' bin.data) with
        | Except.error e => Except.error e
        | Except.ok recs =>
          Except.ok (recs, (if opcode ∈ pseudoBranches then pc + 1 else pc) + 1)

/-- Pass 2 over a whole source, threading the running address (fail-fast). -/
def pass2 (label_map : List (String × Int)) :
    List String → Int → Except AsmError (List String × Int)
  | [], pc => Except.ok ([], pc)
  | l :: ls, pc =>
    match pass2Step label_map pc l with
    | Except.error e => Except.error e
    | Except.ok (r, pc') =>
      match pass2 label_map ls pc' with
      | Except.error e => Except.error e
      | Except.ok (rs, pc'') => Except.ok (r ++ rs, pc'')

/-- One line of pass 1 of `main`: bind a label or advance the instruction-slot
counter (by 2 for a lowered conditional pseudo-branch, 1 otherwise).  The
state is (label map, counter); a rebinding prepends, so `List.lookup` sees the
latest binding like a Python dict. -/
def pass1Step (st : List (String × Int) × Int) (rawLine : String) :
    List (String × Int) × Int :=
  match wordsOf ((trimChars rawLine.data).map commaToSpace) with
  | [] => st
  | w :: _ =>
    if (trimChars rawLine.data).getLast? = some ':' then
      ((String.mk (trimChars rawLine.data).dropLast, st.2) :: st.1, st.2)
    else if ¬ trimChars rawLine.data = [] ∧
        ¬ (trimChars rawLine.data).head? = some '#' then
      if String.mk (w.map lowerChar) ∈ pseudoBranches then (st.1, st.2 + 2)
      else (st.1, st.2 + 1)
    else st

/-- Pass 1 over a whole source. -/
def pass1 (lines : List String) : List (String × Int) × Int :=
  lines.foldl pass1Step ([], 0)

/-- No newline occurs among the characters of a string. -/
def noNL (s : String) : Prop := ∀ c ∈ s.data, c ≠ '\n'

theorem noNL_append {s t : String} (hs : noNL s) (ht : noNL t) : noNL (s ++ t) := by
  intro c hc
  rw [String.data_append] at hc
  rcases List.mem_append.mp hc with h | h
  exacts [hs c h, ht c h]

theorem noNL_of_word {s : String} (h : ∀ c ∈ s.data, wordChar c) : noNL s :=
  fun c hc => wordChar_ne_newline (h c hc)

theorem noNL_underscore : noNL "_" := by
  intro c hc
  rcases List.mem_singleton.mp hc with rfl
  decide

theorem noNL_fmtBin (w n : Nat) : noNL (fmtBin w n) :=
  noNL_of_word fun c hc => Or.inl (fmtBin_bits hc)

theorem noNL_fmtBinInt (w : Nat) (z : Int) : noNL (fmtBinInt w z) := by
  rw [fmtBinInt]
  split
  · intro c hc
    rcases List.mem_cons.mp hc with rfl | hc'
    · decide
    · rw [padZeros] at hc'
      rcases List.mem_append.mp hc' with h | h
      · rcases List.eq_of_mem_replicate h with rfl
        decide
      · exact wordChar_ne_newline (Or.inl (natBinDigits_bits h))
  · exact noNL_fmtBin w z.toNat

theorem noNL_rshape {o f1 f2 f3 f4 fn : String}
    (h0 : noNL o) (h1 : noNL f1) (h2 : noNL f2) (h3 : noNL f3) (h4 : noNL f4)
    (hn : noNL fn) :
    noNL (o ++ "_" ++ f1 ++ "_" ++ f2 ++ "_" ++ f3 ++ "_" ++ f4 ++ "_" ++ fn) :=
  noNL_append (noNL_append (noNL_append (noNL_append (noNL_append (noNL_append
    (noNL_append (noNL_append (noNL_append (noNL_append h0 noNL_underscore) h1)
      noNL_underscore) h2) noNL_underscore) h3) noNL_underscore) h4)
    noNL_underscore) hn

theorem noNL_jshape {o ad : String} (h0 : noNL o) (ha : noNL ad) :
    noNL (o ++ "_" ++ ad) :=
  noNL_append (noNL_append h0 noNL_underscore) ha

theorem noNL_regBits {s v : String} (h : regBits s = Except.ok v) : noNL v :=
  noNL_of_word (wordChar_of_bits (regBits_ok_shape h).2)

theorem noNL_opcBits {s v : String} (h : opcBits s = Except.ok v) : noNL v :=
  noNL_of_word (wordChar_of_bits (opcBits_ok h).2)

theorem noNL_funcBits {s v : String} (h : funcBits s = Except.ok v) : noNL v :=
  noNL_of_word (wordChar_of_bits (funcBits_ok h).2)

theorem noNL_zeros : noNL "00000" := by
  intro c hc
  have : ∀ x ∈ ("00000" : String).data, x ≠ '\n' := by decide
  exact this c hc

/-- Every single word produced by `assemble_r_type` is newline-free. -/
theorem assemble_r_type_noNL {op : String} {operands : List String} {b : String}
    (hok : assemble_r_type op operands = Except.ok b) : noNL b := by
  rw [assemble_r_type] at hok
  by_cases h1 : op ∈ ["sll", "srl", "sra", "sllv", "srlv", "srav"]
  · rw [if_pos h1] at hok
    rw [bind_ok_iff] at hok
    obtain ⟨rd, hrd, hok⟩ := hok
    rw [bind_ok_iff] at hok
    obtain ⟨rt, hrt, hok⟩ := hok
    rw [bind_ok_iff] at hok
    obtain ⟨k, hk, hok⟩ := hok
    rw [bind_ok_iff] at hok
    obtain ⟨fn, hfn, hok⟩ := hok
    rw [bind_ok_iff] at hok
    obtain ⟨opc, hopc, hok⟩ := hok
    rw [except_pure, Except.ok.injEq] at hok
    subst hok
    exact noNL_rshape (noNL_opcBits hopc) noNL_zeros (noNL_regBits hrt)
      (noNL_regBits hrd) (noNL_fmtBinInt 5 k) (noNL_funcBits hfn)
  · rw [if_neg h1] at hok
    by_cases h2 : op = "jr"
    · rw [if_pos h2] at hok
      rw [bind_ok_iff] at hok
      obtain ⟨rs, hrs, hok⟩ := hok
      rw [bind_ok_iff] at hok
      obtain ⟨fn, hfn, hok⟩ := hok
      rw [bind_ok_iff] at hok
      obtain ⟨opc, hopc, hok⟩ := hok
      rw [except_pure, Except.ok.injEq] at hok
      subst hok
      exact noNL_rshape (noNL_opcBits hopc) (noNL_regBits hrs) noNL_zeros
        noNL_zeros noNL_zeros (noNL_funcBits hfn)
    · rw [if_neg h2] at hok
      rw [bind_ok_iff] at hok
      obtain ⟨rd, hrd, hok⟩ := hok
      rw [bind_ok_iff] at hok
      obtain ⟨rs, hrs, hok⟩ := hok
      rw [bind_ok_iff] at hok
      obtain ⟨rt, hrt, hok⟩ := hok
      rw [bind_ok_iff] at hok
      obtain ⟨fn, hfn, hok⟩ := hok
      rw [bind_ok_iff] at hok
      obtain ⟨opc, hopc, hok⟩ := hok
      rw [except_pure, Except.ok.injEq] at hok
      subst hok
      exact noNL_rshape (noNL_opcBits hopc) (noNL_regBits hrs) (noNL_regBits hrt)
        (noNL_regBits hrd) noNL_zeros (noNL_funcBits hfn)

/-- Every single word produced by `assemble_i_type` is newline-free. -/
theorem assemble_i_type_noNL {op : String} {operands : List String}
    {label_map : List (String × Int)} {addr : Option Int} {b : String}
    (hok : assemble_i_type op operands label_map addr = Except.ok b) : noNL b :=
  noNL_of_word (assemble_i_type_ok hok).2

/-- Every single word produced by `assemble_j_type` is newline-free. -/
theorem assemble_j_type_noNL {op : String} {operands : List String}
    {label_map : List (String × Int)} {b : String}
    (hok : assemble_j_type op operands label_map = Except.ok b) : noNL b := by
  rw [assemble_j_type] at hok
  by_cases h1 : label_map ≠ []
  · rw [if_pos h1] at hok
    rw [bind_ok_iff] at hok
    obtain ⟨a, ha, hok⟩ := hok
    rw [bind_ok_iff] at hok
    obtain ⟨opc, hopc, hok⟩ := hok
    rw [except_pure, Except.ok.injEq] at hok
    subst hok
    exact noNL_jshape (noNL_opcBits hopc) (noNL_fmtBinInt 26 a)
  · rw [if_neg h1] at hok
    rw [bind_ok_iff] at hok
    obtain ⟨k, hk, hok⟩ := hok
    rw [bind_ok_iff] at hok
    obtain ⟨opc, hopc, hok⟩ := hok
    rw [except_pure, Except.ok.injEq] at hok
    subst hok
    exact noNL_jshape (noNL_opcBits hopc) (noNL_fmtBinInt 26 k)

theorem chSplit_noNL_single (s : String) (h : noNL s) :
    chSplit '\n' s.data = [s.data] :=
  chSplitP_no_sep fun x hx => decide_eq_false (h x hx)

theorem chSplit_noNL_pair (s1 s2 : String) (h1 : noNL s1) (h2 : noNL s2) :
    chSplit '\n' (s1 ++ "\n" ++ s2).data = [s1.data, s2.data] := by
  have e : (s1 ++ "\n" ++ s2).data = s1.data ++ '\n' :: s2.data := by
    simp [String.data_append]
  rw [e, chSplit,
    chSplitP_append_cons (by decide) (fun x hx => decide_eq_false (h1 x hx)),
    chSplitP_no_sep fun x hx => decide_eq_false (h2 x hx)]

/-- Splitting an accepted encoding on newlines yields two words for a lowered
conditional pseudo-branch and one word for everything else. -/
theorem assemble_instruction_word_count {op : String} {operands : List String}
    {label_map : List (String × Int)} {addr : Option Int} {b : String}
    (hok : assemble_instruction op operands label_map addr = Except.ok b) :
    (chSplit '\n' b.data).length = if op ∈ pseudoBranches then 2 else 1 := by
  rw [assemble_instruction] at hok
  by_cases h1 : op = "nop"
  · subst h1
    rw [if_pos rfl] at hok
    cases hok
    rw [if_neg (by decide : ¬ ("nop" ∈ pseudoBranches))]
    decide
  · rw [if_neg h1] at hok
    by_cases h2 : op = "sgt"
    · subst h2
      rw [if_pos rfl] at hok
      rw [if_neg (by decide : ¬ ("sgt" ∈ pseudoBranches)),
        chSplit_noNL_single b (assemble_r_type_noNL hok)]
      rfl
    · rw [if_neg h2] at hok
      by_cases h3 : op = "move"
      · subst h3
        rw [if_pos rfl] at hok
        rw [if_neg (by decide : ¬ ("move" ∈ pseudoBranches)),
          chSplit_noNL_single b (assemble_r_type_noNL hok)]
        rfl
      · rw [if_neg h3] at hok
        by_cases h4 : op = "li"
        · subst h4
          rw [if_pos rfl] at hok
          rw [if_neg (by decide : ¬ ("li" ∈ pseudoBranches)),
            chSplit_noNL_single b (assemble_i_type_noNL hok)]
          rfl
        · rw [if_neg h4] at hok
          by_cases h5 : op = "blt"
          · subst h5
            rw [if_pos rfl] at hok
            rw [bind_ok_iff] at hok
            obtain ⟨s1, hs1, hok⟩ := hok
            rw [bind_ok_iff] at hok
            obtain ⟨s2, hs2, hok⟩ := hok
            rw [except_pure, Except.ok.injEq] at hok
            subst hok
            rw [if_pos (by decide : "blt" ∈ pseudoBranches),
              chSplit_noNL_pair s1 s2 (assemble_r_type_noNL hs1)
                (assemble_i_type_noNL hs2)]
            rfl
          · rw [if_neg h5] at hok
            by_cases h6 : op = "bgt"
            · subst h6
              rw [if_pos rfl] at hok
              rw [bind_ok_iff] at hok
              obtain ⟨s1, hs1, hok⟩ := hok
              rw [bind_ok_iff] at hok
              obtain ⟨s2, hs2, hok⟩ := hok
              rw [except_pure, Except.ok.injEq] at hok
              subst hok
              rw [if_pos (by decide : "bgt" ∈ pseudoBranches),
                chSplit_noNL_pair s1 s2 (assemble_r_type_noNL hs1)
                  (assemble_i_type_noNL hs2)]
              rfl
            · rw [if_neg h6] at hok
              by_cases h7 : op = "ble"
              · subst h7
                rw [if_pos rfl] at hok
                rw [bind_ok_iff] at hok
                obtain ⟨s1, hs1, hok⟩ := hok
                rw [bind_ok_iff] at hok
                obtain ⟨s2, hs2, hok⟩ := hok
                rw [except_pure, Except.ok.injEq] at hok
                subst hok
                rw [if_pos (by decide : "ble" ∈ pseudoBranches),
                  chSplit_noNL_pair s1 s2 (assemble_r_type_noNL hs1)
                    (assemble_i_type_noNL hs2)]
                rfl
              · rw [if_neg h7] at hok
                by_cases h8 : op = "bge"
                · subst h8
                  rw [if_pos rfl] at hok
                  rw [bind_ok_iff] at hok
                  obtain ⟨s1, hs1, hok⟩ := hok
                  rw [bind_ok_iff] at hok
                  obtain ⟨s2, hs2, hok⟩ := hok
                  rw [except_pure, Except.ok.injEq] at hok
                  subst hok
                  rw [if_pos (by decide : "bge" ∈ pseudoBranches),
                    chSplit_noNL_pair s1 s2 (assemble_r_type_noNL hs1)
                      (assemble_i_type_noNL hs2)]
                  rfl
                · rw [if_neg h8] at hok
                  by_cases h9 : op ∈ func_codes.map Prod.fst
                  · rw [if_pos h9] at hok
                    rw [if_neg (func_keys_not_pseudo op h9),
                      chSplit_noNL_single b (assemble_r_type_noNL hok)]
                    rfl
                  · rw [if_neg h9] at hok
                    by_cases h10 : op ∈ ["lw", "sw", "addi", "addiu", "andi",
                        "ori", "xori", "slti", "sltiu", "beq", "bne"]
                    · rw [if_pos h10] at hok
                      rw [if_neg (i_keys_not_pseudo op h10),
                        chSplit_noNL_single b (assemble_i_type_noNL hok)]
                      rfl
                    · rw [if_neg h10] at hok
                      by_cases h11 : op = "j" ∨ op = "jal"
                      · rw [if_pos h11] at hok
                        have : op ∉ pseudoBranches := by
                          rcases h11 with rfl | rfl <;> decide
                        rw [if_neg this,
                          chSplit_noNL_single b (assemble_j_type_noNL hok)]
                        rfl
                      · rw [if_neg h11] at hok
                        cases hok

theorem renderAll_length {line : List Char} :
    ∀ {ws : List (List Char)} {recs : List String},
      renderAll line ws = Except.ok recs → recs.length = ws.length := by
  intro ws
  induction ws with
  | nil => intro recs h; cases h; rfl
  | cons w ws ih =>
    intro recs h
    rw [renderAll] at h
    rw [bind_ok_iff] at h
    obtain ⟨r, hr, h⟩ := h
    rw [bind_ok_iff] at h
    obtain ⟨rs, hrs, h⟩ := h
    rw [except_pure, Except.ok.injEq] at h
    subst h
    simp [ih hrs]

/-- Pass-2 bookkeeping, per line: the running address advances by exactly the
number of emitted records (0 for skipped lines, 1 for one-word instructions,
2 = 1 pre-increment + 1 post-increment for pseudo-branches). -/
theorem pass2Step_pc {label_map : List (String × Int)} {pc : Int} {rawLine : String}
    {recs : List String} {pc' : Int}
    (h : pass2Step label_map pc rawLine = Except.ok (recs, pc')) :
    pc' = pc + recs.length := by
  rw [pass2Step] at h
  split at h
  · cases h; simp
  · split at h
    · cases h; simp
    · split at h
      · cases h; simp
      · split at h
        · cases h
        · split at h
          · cases h
          · split at h
            · cases h
            · rename_i x1 op ops hparse x2 bin hassemble x3 recs0 hrender
              cases h
              have hc := assemble_instruction_word_count hassemble
              have hl := renderAll_length hrender
              by_cases hps : op ∈ pseudoBranches
              · rw [if_pos hps] at hc ⊢
                rw [hl, hc]
                omega
              · rw [if_neg hps] at hc ⊢
                rw [hl, hc]
                omega

/-- Pass-2 bookkeeping over a whole source: the final running address is the
start address plus the total number of emitted 32-bit words. -/
theorem pass2_pc {label_map : List (String × Int)} :
    ∀ {lines : List String} {pc : Int} {recs : List String} {pc' : Int},
      pass2 label_map lines pc = Except.ok (recs, pc') →
        pc' = pc + recs.length := by
  intro lines
  induction lines with
  | nil =>
    intro pc recs pc' h
    cases h
    simp
  | cons l ls ih =>
    intro pc recs pc' h
    rw [pass2] at h
    split at h
    · cases h
    · rename_i x1 r pc1 hstep
      split at h
      · cases h
      · rename_i x2 rs pc2 hrec
        cases h
        have h1 := pass2Step_pc hstep
        have h2 := ih hrec
        simp only [List.length_append]
        omega

/-- The four pseudo-branches cannot be encoded without operands: the lowered
`slt` half already fails looking up the empty register name. -/
theorem pseudo_needs_operands {op : String} (hps : op ∈ pseudoBranches)
    (label_map : List (String × Int)) (addr : Option Int) (b : String) :
    assemble_instruction op [] label_map addr ≠ Except.ok b := by
  have hslt : assemble_r_type "slt" ["$25", "", ""] =
      Except.error AsmError.InvalidOperand := by decide
  intro hok
  rcases (by simpa [pseudoBranches] using hps :
      op = "blt" ∨ op = "bgt" ∨ op = "ble" ∨ op = "bge") with rfl | rfl | rfl | rfl <;>
    simp [assemble_instruction, hslt, except_error_bind] at hok

/-- Pass-2, pseudo-branch lines: the address is pre-incremented before the
encoder is invoked (so the branch half's offset is relative to `pc + 1`), two
words and two records are emitted, and the address advances by 2 in total. -/
theorem pass2Step_pseudo {label_map : List (String × Int)} {pc : Int}
    {rawLine : String} {recs : List String} {pc' : Int} {op : String}
    {ops : List String}
    (h : pass2Step label_map pc rawLine = Except.ok (recs, pc'))
    (hne : recs ≠ [])
    (hp : parse_instruction (String.mk (instrText rawLine)) = some (op, ops))
    (hps : op ∈ pseudoBranches) :
    ∃ bin, assemble_instruction op ops label_map (some (pc + 1)) = Except.ok bin ∧
      (chSplit '\n' bin.data).length = 2 ∧ recs.length = 2 ∧ pc' = pc + 2 := by
  rw [pass2Step] at h
  split at h
  · cases h
    exact absurd rfl hne
  · split at h
    · cases h
      exact absurd rfl hne
    · split at h
      · cases h
        exact absurd rfl hne
      · split at h
        · cases h
        · split at h
          · cases h
          · split at h
            · cases h
            · rename_i x1 op2 ops2 hparse x2 bin hassemble x3 recs0 hrender
              cases h
              rw [hp] at hparse
              cases hparse
              rw [if_pos hps] at hassemble
              have hc := assemble_instruction_word_count hassemble
              rw [if_pos hps] at hc
              have hl := renderAll_length hrender
              refine ⟨bin, hassemble, hc, ?_, ?_⟩
              · rw [hl, hc]
              · rw [if_pos hps]
                omega

theorem chSplitP_ne_nil (p : Char → Bool) : ∀ l : List Char, chSplitP p l ≠ [] := by
  intro l
  induction l with
  | nil => simp [chSplitP]
  | cons c cs ih =>
    rw [chSplitP]
    by_cases hc : p c
    · simp [hc]
    · rw [if_neg hc]
      cases hr : chSplitP p cs with
      | nil => simp
      | cons a as => simp

theorem chSplitP_headD (p : Char → Bool) :
    ∀ l : List Char, (chSplitP p l).headD [] = l.takeWhile (fun c => !p c) := by
  intro l
  induction l with
  | nil => rfl
  | cons c cs ih =>
    rw [chSplitP]
    by_cases hc : p c
    · simp [hc]
    · rw [if_neg hc]
      cases hr : chSplitP p cs with
      | nil => exact absurd hr (chSplitP_ne_nil p cs)
      | cons a as =>
        rw [hr] at ih
        simp only [List.headD_cons] at ih
        simp [List.takeWhile_cons, hc, ih]

theorem wordsOf_ws_cons {c : Char} (hc : wsChar c = true) (l : List Char) :
    wordsOf (c :: l) = wordsOf l := by
  rw [wordsOf, wordsOf, chSplitP, if_pos hc, List.filter_cons]
  simp

theorem wordsOf_leading {wsp : List Char} (h : ∀ c ∈ wsp, wsChar c = true)
    (l : List Char) : wordsOf (wsp ++ l) = wordsOf l := by
  induction wsp with
  | nil => rfl
  | cons c w ih =>
    rw [List.cons_append, wordsOf_ws_cons (h c (List.mem_cons_self _ _))]
    exact ih fun x hx => h x (List.mem_cons_of_mem _ hx)

theorem wordsOf_headD :
    ∀ l : List Char,
      (wordsOf l).headD [] = (l.dropWhile wsChar).takeWhile (fun c => !wsChar c) := by
  intro l
  induction l with
  | nil => rfl
  | cons c cs ih =>
    by_cases hc : wsChar c
    · rw [wordsOf_ws_cons hc, List.dropWhile_cons_of_pos hc]
      exact ih
    · rw [List.dropWhile_cons_of_neg hc, List.takeWhile_cons_of_pos (by simp [hc])]
      rw [wordsOf, chSplitP, if_neg hc]
      cases hr : chSplitP wsChar cs with
      | nil => exact absurd hr (chSplitP_ne_nil wsChar cs)
      | cons a as =>
        have ha : a = cs.takeWhile (fun x => !wsChar x) := by
          have := chSplitP_headD wsChar cs
          rw [hr] at this
          simpa using this
        simp [List.filter_cons, ha]

theorem chSplitP_append_sep {p : Char → Bool} {c : Char} (hpc : p c = true) :
    ∀ l : List Char, chSplitP p (l ++ [c]) = chSplitP p l ++ [[]] := by
  intro l
  induction l with
  | nil => simp [chSplitP, hpc]
  | cons x l' ih =>
    rw [List.cons_append, chSplitP, chSplitP]
    by_cases hx : p x
    · rw [if_pos hx, if_pos hx, ih]
      rfl
    · rw [if_neg hx, if_neg hx, ih]
      cases hr : chSplitP p l' with
      | nil => exact absurd hr (chSplitP_ne_nil p l')
      | cons a as => simp

theorem wordsOf_trailing :
    ∀ {sfx : List Char}, (∀ c ∈ sfx, wsChar c = true) →
      ∀ l : List Char, wordsOf (l ++ sfx) = wordsOf l := by
  intro sfx
  induction sfx with
  | nil => intro _ l; simp
  | cons c s ih =>
    intro h l
    have : l ++ c :: s = (l ++ [c]) ++ s := by simp
    rw [this, ih (fun x hx => h x (List.mem_cons_of_mem _ hx)) (l ++ [c]),
      wordsOf, chSplitP_append_sep (h c (List.mem_cons_self _ _)) l,
      List.filter_append]
    simp [wordsOf]

/-- `commaToSpace` sends whitespace to whitespace. -/
theorem sigma_ws {c : Char} (h : wsChar c = true) : wsChar (commaToSpace c) = true := by
  rcases of_decide_eq_true h with rfl | rfl | rfl | rfl <;> decide

/-- `commaToSpace` never produces or destroys a `'#'`. -/
theorem sigma_hash (c : Char) :
    (!decide (commaToSpace c = '#')) = (!decide (c = '#')) := by
  rw [commaToSpace]
  by_cases hc : c = ','
  · subst hc; decide
  · rw [if_neg hc]

/-- Trimming is removing a whitespace prefix and a whitespace suffix. -/
theorem trimChars_decomp (X : List Char) :
    ∃ wsp wss, (∀ c ∈ wsp, wsChar c = true) ∧ (∀ c ∈ wss, wsChar c = true) ∧
      X = wsp ++ trimChars X ++ wss := by
  refine ⟨X.takeWhile wsChar, ((X.dropWhile wsChar).reverse.takeWhile wsChar).reverse,
    fun c hc => List.mem_takeWhile_imp hc,
    fun c hc => List.mem_takeWhile_imp (List.mem_reverse.mp hc), ?_⟩
  rw [trimChars]
  conv_lhs => rw [← List.takeWhile_append_dropWhile (p := wsChar) (l := X)]
  rw [List.append_assoc]
  congr 1
  conv_lhs => rw [← List.reverse_reverse (X.dropWhile wsChar),
    ← List.takeWhile_append_dropWhile (p := wsChar)
      (l := (X.dropWhile wsChar).reverse)]
  rw [List.reverse_append]

/-- Words are insensitive to trimming, after the comma-to-space map. -/
theorem wordsOf_sigma_trim (X : List Char) :
    wordsOf ((trimChars X).map commaToSpace) = wordsOf (X.map commaToSpace) := by
  obtain ⟨wsp, wss, hp, hs, hX⟩ := trimChars_decomp X
  conv_rhs => rw [hX]
  rw [List.map_append, List.map_append,
    wordsOf_trailing (fun c hc => by
      obtain ⟨x, hx, rfl⟩ := List.mem_map.mp hc
      exact sigma_ws (hs x hx)),
    wordsOf_leading (fun c hc => by
      obtain ⟨x, hx, rfl⟩ := List.mem_map.mp hc
      exact sigma_ws (hp x hx))]

theorem takeWhile_all_append {q : Char → Bool} {a : List Char}
    (h : ∀ c ∈ a, q c = true) (m : List Char) :
    (a ++ m).takeWhile q = a ++ m.takeWhile q := by
  induction a with
  | nil => rfl
  | cons c a ih =>
    rw [List.cons_append, List.takeWhile_cons_of_pos (h c (List.mem_cons_self _ _)),
      ih fun x hx => h x (List.mem_cons_of_mem _ hx)]
    rfl

theorem takeWhile_takeWhile_of_sub {p q : Char → Bool} :
    ∀ {m : List Char}, (∀ x ∈ m.takeWhile p, q x = true) →
      (m.takeWhile q).takeWhile p = m.takeWhile p := by
  intro m
  induction m with
  | nil => intro _; rfl
  | cons c m' ih =>
    intro h
    by_cases hq : q c
    · rw [List.takeWhile_cons_of_pos hq]
      by_cases hp : p c
      · rw [List.takeWhile_cons_of_pos hp, List.takeWhile_cons_of_pos hp,
          ih fun x hx => h x (by rw [List.takeWhile_cons_of_pos hp]
                                 exact List.mem_cons_of_mem _ hx)]
      · rw [List.takeWhile_cons_of_neg hp, List.takeWhile_cons_of_neg hp]
    · have hp : ¬ p c = true := by
        intro hp
        exact hq (h c (by rw [List.takeWhile_cons_of_pos hp]
                          exact List.mem_cons_self _ _))
      rw [List.takeWhile_cons_of_neg hq, List.takeWhile_cons_of_neg hp]
      rfl

theorem takeWhile_all_of_sep_mem {p q : Char → Bool} {c0 : Char} :
    ∀ {m : List Char}, c0 ∈ m.takeWhile p → q c0 = false →
      ∀ x ∈ m.takeWhile q, p x = true := by
  intro m
  induction m with
  | nil => intro h _ x hx; simp at h
  | cons c m' ih =>
    intro hmem hq0 x hx
    by_cases hp : p c
    · rw [List.takeWhile_cons_of_pos hp] at hmem
      rcases List.mem_cons.mp hmem with rfl | hmem'
      · rw [List.takeWhile_cons_of_neg (by simp [hq0])] at hx
        simp at hx
      · by_cases hq : q c
        · rw [List.takeWhile_cons_of_pos hq] at hx
          rcases List.mem_cons.mp hx with rfl | hx'
          · exact hp
          · exact ih hmem' hq0 x hx'
        · rw [List.takeWhile_cons_of_neg hq] at hx
          simp at hx
    · rw [List.takeWhile_cons_of_neg hp] at hmem
      simp at hmem

theorem dropWhile_head_neg {p : Char → Bool} :
    ∀ {l : List Char} {c : Char} {t : List Char},
      l.dropWhile p = c :: t → p c = false := by
  intro l
  induction l with
  | nil => intro c t h; cases h
  | cons x l' ih =>
    intro c t h
    by_cases hx : p x
    · rw [List.dropWhile_cons_of_pos hx] at h
      exact ih h
    · rw [List.dropWhile_cons_of_neg hx] at h
      cases h
      simpa using hx

theorem ws_not_hash {c : Char} (h : wsChar c = true) :
    (!decide (c = '#')) = true := by
  rcases of_decide_eq_true h with rfl | rfl | rfl | rfl <;> decide

theorem pseudo_no_hash : ∀ s ∈ pseudoBranches, '#' ∉ s.data := by decide

theorem wordsOf_all_nonws {u : List Char} (hu : ∀ x ∈ u, wsChar x = false)
    (hne : u ≠ []) : wordsOf u = [u] := by
  rw [wordsOf, chSplitP_no_sep hu, List.filter_cons]
  simp [hne]

theorem wordsOf_cons_shape {c : Char} {l : List Char} (hc : wsChar c = false) :
    ∃ rest, wordsOf (c :: l) =
      (c :: l.takeWhile (fun x => !wsChar x)) :: rest := by
  rw [wordsOf, chSplitP, if_neg (by simp [hc])]
  cases hr : chSplitP wsChar l with
  | nil => exact absurd hr (chSplitP_ne_nil _ _)
  | cons a as =>
    have ha : a = l.takeWhile fun x => !wsChar x := by
      have h0 := chSplitP_headD wsChar l
      rw [hr] at h0
      simpa using h0
    refine ⟨as.filter fun w => decide (w ≠ []), ?_⟩
    rw [List.filter_cons]
    simp [ha]

theorem dropWhile_eq_trim_append (X : List Char) :
    ∃ wss, (∀ c ∈ wss, wsChar c = true) ∧
      X.dropWhile wsChar = trimChars X ++ wss := by
  refine ⟨((X.dropWhile wsChar).reverse.takeWhile wsChar).reverse,
    fun c hc => List.mem_takeWhile_imp (List.mem_reverse.mp hc), ?_⟩
  rw [trimChars]
  conv_lhs => rw [← List.reverse_reverse (X.dropWhile wsChar),
    ← List.takeWhile_append_dropWhile (p := wsChar)
      (l := (X.dropWhile wsChar).reverse)]
  rw [List.reverse_append]

theorem trimChars_ne_nil {c : Char} (hc : wsChar c = false) (t : List Char) :
    trimChars (c :: t) ≠ [] := by
  rw [trimChars, List.dropWhile_cons_of_neg (by simp [hc])]
  intro hcon
  rw [List.reverse_eq_nil_iff, List.dropWhile_eq_nil_iff] at hcon
  have := hcon c (by simp)
  rw [this] at hc
  cases hc

theorem instrText_ne_nil {rawLine : String}
    (hT : trimChars rawLine.data ≠ [])
    (hhash : ¬ (trimChars rawLine.data).head? = some '#') :
    instrText rawLine ≠ [] := by
  obtain ⟨c, t, hct⟩ : ∃ c t, trimChars rawLine.data = c :: t := by
    cases hc : trimChars rawLine.data with
    | nil => exact absurd hc hT
    | cons a b => exact ⟨a, b, rfl⟩
  obtain ⟨wss, hws, hD⟩ := dropWhile_eq_trim_append rawLine.data
  rw [hct, List.cons_append] at hD
  have hcws : wsChar c = false := dropWhile_head_neg hD
  have hch : ¬ c = '#' := by
    intro hc'
    subst hc'
    exact hhash (by rw [hct]; rfl)
  rw [instrText, chSplit, chSplitP_headD, hct,
    List.takeWhile_cons_of_pos (by simp [hch])]
  exact trimChars_ne_nil hcws _

/-- Pass-1 and pass-2 agree on the per-line address advance: pass 1 advances
its instruction-slot counter by exactly the number of 32-bit records pass 2
emits for that line.  Hence the pass-2 running address of a line equals its
pass-1 (resolver) address. -/
theorem pass2Step_pass1_delta {label_map : List (String × Int)} {pc : Int}
    {rawLine : String} {recs : List String} {pc' : Int}
    (st : List (String × Int) × Int)
    (h : pass2Step label_map pc rawLine = Except.ok (recs, pc')) :
    (pass1Step st rawLine).2 = st.2 + recs.length := by
  rw [pass2Step] at h
  split at h
  · -- label-definition or full-comment line: skipped by both passes
    rename_i hcond
    cases h
    rw [pass1Step]
    split
    · simp
    · by_cases hcol : (trimChars rawLine.data).getLast? = some ':'
      · rw [if_pos hcol]
        simp
      · have hstart : (trimChars rawLine.data).head? = some '#' :=
          hcond.resolve_left hcol
        rw [if_neg hcol, if_neg (by intro hcontra; exact hcontra.2 hstart)]
        simp
  · split at h
    · -- blank line
      rename_i hcond hblank
      cases h
      rw [pass1Step, hblank]
      have : wordsOf ((List.map commaToSpace [])) = [] := rfl
      rw [this]
      simp
    · split at h
      · -- comment-stripped body empty: impossible for a non-blank,
        -- non-comment line
        rename_i hcond hblank hbody
        exact absurd hbody (instrText_ne_nil hblank
          fun hh => hcond (Or.inr hh))
      · split at h
        · cases h
        · split at h
          · cases h
          · split at h
            · cases h
            · rename_i hcond hblank hbody x1 op2 ops2 hparse x2 bin hassemble
                x3 recs0 hrender
              cases h
              have hl := renderAll_length hrender
              have hc := assemble_instruction_word_count hassemble
              have hr2 : recs.length =
                  if op2 ∈ pseudoBranches then 2 else 1 := by rw [hl, hc]
              rw [parse_instruction] at hparse
              have hQ : ((fun c => !decide (c = '#')) ∘ commaToSpace) =
                  fun c : Char => !decide (c = '#') :=
                funext fun c => sigma_hash c
              have eb1 : wordsOf ((instrText rawLine).map commaToSpace) =
                  wordsOf (((trimChars rawLine.data).takeWhile
                    (fun c => !decide (c = '#'))).map commaToSpace) := by
                rw [instrText, chSplit, chSplitP_headD, wordsOf_sigma_trim]
              have eb2 : ((trimChars rawLine.data).takeWhile
                    (fun c => !decide (c = '#'))).map commaToSpace =
                  ((trimChars rawLine.data).map commaToSpace).takeWhile
                    (fun c => !decide (c = '#')) := by
                rw [List.takeWhile_map, hQ]
              have eb3 : ((trimChars rawLine.data).map commaToSpace).takeWhile
                    (fun c => !decide (c = '#')) =
                  ((trimChars rawLine.data).map commaToSpace).takeWhile wsChar ++
                    (((trimChars rawLine.data).map commaToSpace).dropWhile
                      wsChar).takeWhile (fun c => !decide (c = '#')) := by
                conv_lhs =>
                  rw [← List.takeWhile_append_dropWhile (p := wsChar)
                    (l := (trimChars rawLine.data).map commaToSpace)]
                rw [takeWhile_all_append
                  (fun c hc => ws_not_hash (List.mem_takeWhile_imp hc))]
              have ebody : wordsOf ((String.mk (instrText rawLine)).data.map
                    commaToSpace) =
                  wordsOf ((((trimChars rawLine.data).map commaToSpace).dropWhile
                    wsChar).takeWhile (fun c => !decide (c = '#'))) := by
                show wordsOf ((instrText rawLine).map commaToSpace) = _
                rw [eb1, eb2, eb3,
                  wordsOf_leading (fun c hc => List.mem_takeWhile_imp hc)]
              have epass1 : wordsOf ((trimChars rawLine.data).map commaToSpace) =
                  wordsOf (((trimChars rawLine.data).map commaToSpace).dropWhile
                    wsChar) := by
                conv_lhs =>
                  rw [← List.takeWhile_append_dropWhile (p := wsChar)
                    (l := (trimChars rawLine.data).map commaToSpace)]
                rw [wordsOf_leading (fun c hc => List.mem_takeWhile_imp hc)]
              cases hm : ((trimChars rawLine.data).map commaToSpace).dropWhile
                  wsChar with
              | nil =>
                rw [hm] at ebody
                simp only [List.takeWhile_nil] at ebody
                rw [ebody] at hparse
                simp [wordsOf, chSplitP] at hparse
              | cons c mtl =>
                have hcws : wsChar c = false := dropWhile_head_neg hm
                by_cases hch : c = '#'
                · subst hch
                  rw [hm, List.takeWhile_cons_of_neg
                    (p := fun x => !decide (x = '#')) (by decide)] at ebody
                  rw [ebody] at hparse
                  simp [wordsOf, chSplitP] at hparse
                · have hqc : (fun x : Char => !decide (x = '#')) c = true := by
                    simp [hch]
                  rw [hm, List.takeWhile_cons_of_pos
                    (p := fun x => !decide (x = '#')) hqc] at ebody
                  obtain ⟨rest2, hw2shape⟩ := wordsOf_cons_shape
                    (c := c) (l := mtl.takeWhile fun x => !decide (x = '#')) hcws
                  rw [hw2shape] at ebody
                  rw [ebody] at hparse
                  simp only [Option.some.injEq, Prod.mk.injEq] at hparse
                  obtain ⟨hop2, hops2⟩ := hparse
                  rw [hm] at epass1
                  obtain ⟨rest1, hw1shape⟩ := wordsOf_cons_shape
                    (c := c) (l := mtl) hcws
                  rw [hw1shape] at epass1
                  rw [pass1Step]
                  simp only [epass1]
                  have hcol : ¬ (trimChars rawLine.data).getLast? = some ':' :=
                    fun hh => hcond (Or.inl hh)
                  have hsta : ¬ (trimChars rawLine.data).head? = some '#' :=
                    fun hh => hcond (Or.inr hh)
                  rw [if_neg hcol, if_pos ⟨hblank, hsta⟩]
                  by_cases hhash2 : '#' ∈ mtl.takeWhile fun x => !wsChar x
                  · have hop1 : ¬ (String.mk ((c :: (mtl.takeWhile
                        fun x => !wsChar x)).map lowerChar) ∈ pseudoBranches) := by
                      intro hmem
                      apply pseudo_no_hash _ hmem
                      show '#' ∈ (c :: (mtl.takeWhile fun x => !wsChar x)).map
                        lowerChar
                      exact List.mem_map.mpr ⟨'#',
                        List.mem_cons_of_mem _ hhash2, by decide⟩
                    have hallnw : ∀ x ∈ (c :: (mtl.takeWhile
                        fun x => !decide (x = '#'))), wsChar x = false := by
                      intro x hx
                      rcases List.mem_cons.mp hx with rfl | hx'
                      · exact hcws
                      · have := takeWhile_all_of_sep_mem
                          (p := fun x => !wsChar x)
                          (q := fun x => !decide (x = '#'))
                          hhash2 (by decide) x hx'
                        simpa using this
                    have hwu : wordsOf (c :: (mtl.takeWhile
                        fun x => !decide (x = '#'))) =
                        [c :: (mtl.takeWhile fun x => !decide (x = '#'))] :=
                      wordsOf_all_nonws hallnw (by simp)
                    have hrest2 : rest2 = [] := by
                      have h2 := hwu.symm.trans hw2shape
                      exact (List.cons.injEq _ _ _ _).mp h2 |>.2.symm
                    have hops2nil : ops2 = [] := by
                      rw [← hops2, hrest2]
                      rfl
                    have hop2ps : ¬ op2 ∈ pseudoBranches := fun hps =>
                      pseudo_needs_operands hps label_map _ bin
                        (hops2nil ▸ hassemble)
                    rw [if_neg hop1, hr2, if_neg hop2ps]
                    simp
                  · have heq12 : (mtl.takeWhile
                        fun x => !decide (x = '#')).takeWhile
                          (fun x => !wsChar x) =
                        mtl.takeWhile fun x => !wsChar x :=
                      takeWhile_takeWhile_of_sub fun x hx => by
                        have hxne : ¬ x = '#' := fun hxx => hhash2 (hxx ▸ hx)
                        simp [hxne]
                    rw [heq12] at hop2
                    rw [hop2]
                    by_cases hps2 : op2 ∈ pseudoBranches
                    · rw [if_pos hps2, hr2, if_pos hps2]
                      simp
                    · rw [if_neg hps2, hr2, if_neg hps2]
                      simp

set_option maxRecDepth 8192 in
example :
    pass2Step [] 0 "add $1, $2, $3" =
      Except.ok (["add $1, $2, $3 --> [ binary: 000000_00010_00011_00001_00000_100000, hex: 00430820 ]"], 1) := by
  decide

set_option maxRecDepth 8192 in
example :
    pass2Step [("L", 3)] 0 "blt $1, $2, L" =
      Except.ok
        (["blt $1, $2, L --> [ binary: 000000_00001_00010_11001_00000_101010, hex: 0022C82A ]",
          "blt $1, $2, L --> [ binary: 000101_11001_00000_0000000000000010, hex: 17200002 ]"],
         2) := by
  decide

example : pass2Step [] 5 "  # comment" = Except.ok ([], 5) := by decide

example : pass2Step [] 5 "loop:" = Except.ok ([], 5) := by decide

example :
    pass1 ["start:", "add $1, $2, $3", "blt $1, $2, start", "# c", ""] =
      ([("start", 0)], 3) := by decide

/-- Whole-program version of the pass-1/pass-2 correspondence: a successful
pass 2 over a list of lines advances the address by the total number of
emitted records, and pass 1's fold advances its counter by the same amount
from any starting state. -/
theorem pass2_pass1_delta {label_map : List (String × Int)} :
    ∀ {lines : List String} {pc : Int} {recs : List String} {pc' : Int}
      (st : List (String × Int) × Int),
      pass2 label_map lines pc = Except.ok (recs, pc') →
        (lines.foldl pass1Step st).2 = st.2 + recs.length := by
  intro lines
  induction lines with
  | nil =>
    intro pc recs pc' st h
    cases h
    simp
  | cons l ls ih =>
    intro pc recs pc' st h
    rw [pass2] at h
    split at h
    · cases h
    · rename_i x1 r pc1 hstep
      split at h
      · cases h
      · rename_i x2 rs pc2 hrec
        cases h
        have h1 := pass2Step_pass1_delta st hstep
        have h2 := ih (pass1Step st l) hrec
        rw [List.foldl_cons]
        simp only [List.length_append]
        omega

/-- C4: throughout pass 2 the running address tracks the emitted words.  Every
successfully processed line advances the address by exactly the number of
32-bit records it emits (net +1 for ordinary lines, +2 for the four lowered
conditional pseudo-branches), and the same holds accumulated over a whole
program; line by line and program-wide this advance coincides with the pass-1
label resolver's counter, so the pass-2 running address of each line equals
its resolver address.  For a pseudo-branch line the encoder is invoked with
the pre-incremented address `pc + 1` - the branch half's offset is computed
relative to the branch word's own instruction slot - it emits exactly two
words and two records, and the address advances by 2 in total. -/
theorem c4_running_address (label_map : List (String × Int)) :
    (∀ (pc : Int) (rawLine : String) (recs : List String) (pc' : Int)
        (st : List (String × Int) × Int),
        pass2Step label_map pc rawLine = Except.ok (recs, pc') →
          pc' = pc + recs.length ∧
            (pass1Step st rawLine).2 = st.2 + recs.length) ∧
    (∀ (lines : List String) (pc : Int) (recs : List String) (pc' : Int)
        (st : List (String × Int) × Int),
        pass2 label_map lines pc = Except.ok (recs, pc') →
          pc' = pc + recs.length ∧
            (lines.foldl pass1Step st).2 = st.2 + recs.length) ∧
    (∀ (pc : Int) (rawLine : String) (recs : List String) (pc' : Int)
        (op : String) (ops : List String),
        pass2Step label_map pc rawLine = Except.ok (recs, pc') →
        recs ≠ [] →
        parse_instruction (String.mk (instrText rawLine)) = some (op, ops) →
        op ∈ pseudoBranches →
          ∃ bin,
            assemble_instruction op ops label_map (some (pc + 1)) =
                Except.ok bin ∧
              (chSplit '\n' bin.data).length = 2 ∧ recs.length = 2 ∧
              pc' = pc + 2) := by
  refine ⟨?_, ?_, ?_⟩
  · intro pc rawLine recs pc' st h
    exact ⟨pass2Step_pc h, pass2Step_pass1_delta st h⟩
  · intro lines pc recs pc' st h
    exact ⟨pass2_pc h, pass2_pass1_delta st h⟩
  · intro pc rawLine recs pc' op ops h hne hp hps
    exact pass2Step_pseudo h hne hp hps

set_option maxRecDepth 8192 in
theorem c4_witness :
    pass2Step [("L", 3)] 0 "blt $1, $2, L" =
        Except.ok (["blt $1, $2, L --> [ binary: 000000_00001_00010_11001_00000_101010, hex: 0022C82A ]",
          "blt $1, $2, L --> [ binary: 000101_11001_00000_0000000000000010, hex: 17200002 ]"], 2) ∧
      ((2 : Int) = 0 + ((["blt $1, $2, L --> [ binary: 000000_00001_00010_11001_00000_101010, hex: 0022C82A ]",
          "blt $1, $2, L --> [ binary: 000101_11001_00000_0000000000000010, hex: 17200002 ]"] : List String).length : Int) ∧
        (pass1Step (([], 0) : List (String × Int) × Int) "blt $1, $2, L").2 =
          (([], 0) : List (String × Int) × Int).2 +
            ((["blt $1, $2, L --> [ binary: 000000_00001_00010_11001_00000_101010, hex: 0022C82A ]",
          "blt $1, $2, L --> [ binary: 000101_11001_00000_0000000000000010, hex: 17200002 ]"] : List String).length : Int)) := by
  have h : pass2Step [("L", 3)] 0 "blt $1, $2, L" =
      Except.ok (["blt $1, $2, L --> [ binary: 000000_00001_00010_11001_00000_101010, hex: 0022C82A ]",
          "blt $1, $2, L --> [ binary: 000101_11001_00000_0000000000000010, hex: 17200002 ]"], 2) := by decide
  exact ⟨h, (c4_running_address [("L", 3)]).1 0 "blt $1, $2, L" _ 2 ([], 0) h⟩

end Asm
